import Mathlib

/-!
Verification of the conversational UI assembly core: a shallow embedding of
the intent mapper (src/examples/intent/IntentAnalyzer.ts, class IntentMapper),
the component registry (src/examples/assembly/ComponentRegistry.ts) and the
assembly engine with its layout engine (src/examples/assembly/AssemblyEngine.ts).

Modelling conventions:
- JavaScript objects used as string-keyed records become association lists
  `List (String × α)`; reading a member is `List.lookup`, and the object
  spread `\x7b...a, ...b\x7d` is `jsSpread a b` (keys of `b` win).
- JavaScript `Map` becomes an insertion-ordered association list; `Map.set`
  replaces the value in place when the key exists and appends otherwise,
  `Map.delete` removes the key, mirroring iteration order.
- JavaScript numbers are modelled as rationals `ℚ`; every numeric constant in
  the translated code is an exact decimal, so no floating-point rounding can
  distinguish the model from the code on the values the theorems touch. The
  decimals are written `mkRat d 10` rather than with the `OfScientific`
  literal, and `length * 0.1` as `mkRat length 10`, because the literal and
  `Rat.mul` are irreducible and would block kernel evaluation; the values are
  identical.
- `Date.now()` and `Math.random()` are modelled by explicit parameters: a
  clock value `now : ℕ` and an oracle `fresh : ℕ → String` giving the random
  id suffix of the k-th synthesized component. No claim depends on the ids.
- Callbacks passed to `onUpdate` are opaque to the engine; they are modelled
  by their identity, a value of an arbitrary type.
-/

/-- A JavaScript value as it occurs in component props and entities. `pundefined`
is the `undefined` read of an absent member. -/
inductive PropValue where
  | pstr : String → PropValue
  | pnum : ℚ → PropValue
  | pbool : Bool → PropValue
  | pundefined : PropValue
  | plist : List PropValue → PropValue
  | pobj : List (String × PropValue) → PropValue

/-- JavaScript truthiness of a `PropValue`. -/
def truthy : PropValue → Bool
  | .pstr s => !(s == "")
  | .pnum q => !(q == 0)
  | .pbool b => b
  | .pundefined => false
  | .plist _ => true
  | .pobj _ => true

/-- Member access `object.key` on a JavaScript record: the bound value, or
`undefined` when the key is absent. -/
def jsGet (l : List (String × PropValue)) (k : String) : PropValue :=
  (List.lookup k l).getD .pundefined

/-- The object spread `\x7b...a, ...b\x7d`: keys of `a` in order with values
overridden by `b` where present, then the keys only `b` has. -/
def jsSpread {α : Type} (a b : List (String × α)) : List (String × α) :=
  a.map (fun kv => match List.lookup kv.1 b with
    | some v => (kv.1, v)
    | none => kv)
  ++ b.filter (fun kv => (List.lookup kv.1 a).isNone)

/-- An animation configuration object; every key is optional because the
code builds these objects with varying key sets. -/
structure AnimationObj where
  enter : Option String := none
  exit : Option String := none
  duration : Option ℚ := none
  stagger : Option ℚ := none
deriving DecidableEq

/-- Spread merge of two animation objects, keys of `b` winning. -/
def animSpread (a b : AnimationObj) : AnimationObj :=
  { enter := b.enter <|> a.enter
    exit := b.exit <|> a.exit
    duration := b.duration <|> a.duration
    stagger := b.stagger <|> a.stagger }

/-- The `intent` member of an `IntentAnalysis` (IntentAnalyzer.ts), restricted
to the fields the mapping rules read. -/
structure IntentInfo where
  type : String
  confidence : ℚ

/-- An analyzed intent as consumed by `IntentMapper`. Of the `context` object
the rules only ever read `urgency`, so it is carried as a field. -/
structure IntentAnalysis where
  intent : IntentInfo
  entities : List (String × PropValue)
  urgency : String

/-- A component definition's `props`: either a plain object or a function of
the analysis (IntentAnalyzer.ts, interface ComponentDefinition). -/
inductive PropsSource where
  | staticProps : List (String × PropValue) → PropsSource
  | derivedProps : (IntentAnalysis → List (String × PropValue)) → PropsSource

/-- `typeof comp.props === "function" ? comp.props(analysis) : comp.props`. -/
def evalProps : PropsSource → IntentAnalysis → List (String × PropValue)
  | .staticProps p, _ => p
  | .derivedProps f, a => f a

/-- The mapper-side position object `\x7barea, order\x7d`. -/
structure PosM where
  area : String
  order : ℕ
deriving DecidableEq

/-- A rule-owned component template (IntentAnalyzer.ts, ComponentDefinition). -/
structure ComponentDefinition where
  type : String
  props : PropsSource
  position : PosM

/-- The `modifications` record of a modify rule. The source declares it as a
free-form record; the fields here are exactly the keys occurring in the
code's modification records (`animation` and `props`). -/
structure Modifications where
  animation : Option AnimationObj := none
  props : Option (List (String × PropValue)) := none

/-- A rule's instruction template (IntentAnalyzer.ts, RuleInstruction). -/
structure RuleInstruction where
  action : String
  components : Option (List ComponentDefinition) := none
  layout : Option String := none
  animation : Option AnimationObj := none
  modifications : Option Modifications := none

/-- A mapping rule (IntentAnalyzer.ts, MappingRule). -/
structure MappingRule where
  id : String
  condition : IntentAnalysis → Bool
  instruction : RuleInstruction

/-- A synthesized component instance in a mapper instruction
(IntentAnalyzer.ts, ComponentInstance); `animationDelay` is optional. -/
structure ComponentInstanceM where
  id : String
  type : String
  props : List (String × PropValue)
  position : PosM
  animationDelay : Option ℚ

/-- The merged instruction the mapper returns (IntentAnalyzer.ts,
UIInstruction). `topProps` is the top-level `props` key that
`Object.assign` of a modify rule writes onto the instruction. -/
structure UIInstructionM where
  action : String
  components : List ComponentInstanceM
  layout : String
  animation : AnimationObj
  topProps : Option (List (String × PropValue)) := none

/-- `extractFilters` helper: add `dst: entities[src]` when truthy. -/
def filterEntry (entities : List (String × PropValue)) (src dst : String) :
    List (String × PropValue) :=
  if truthy (jsGet entities src) then [(dst, jsGet entities src)] else []

/-- IntentMapper.extractFilters. -/
def extractFilters (entities : List (String × PropValue)) :
    List (String × PropValue) :=
  filterEntry entities "color" "color"
  ++ filterEntry entities "product_type" "category"
  ++ filterEntry entities "occasion" "occasion"
  ++ filterEntry entities "price_range" "priceRange"
  ++ filterEntry entities "style" "style"

/-- IntentMapper.getAvailableFilters. -/
def getAvailableFilters (entities : List (String × PropValue)) : List String :=
  let allFilters : List String :=
    ["category", "color", "size", "price", "occasion", "style", "material"]
  let mentioned := (extractFilters entities).map Prod.fst
  mentioned ++ allFilters.filter (fun f => !(mentioned.contains f))

/-- The apostrophe character, kept out of string literals. -/
def apoS : String := String.singleton (Char.ofNat 39)

/-- Rule `greeting_rule` of IntentMapper.initializeMappingRules. -/
def greetingRule : MappingRule :=
  { id := "greeting_rule"
    condition := fun a =>
      a.intent.type == "greeting" && decide (mkRat 7 10 < a.intent.confidence)
    instruction :=
      { action := "add"
        components := some
          [ { type := "WelcomeHero"
              props := .staticProps
                [ ("message", .pstr "Welcome to our world of luxury")
                , ("subtitle", .pstr "How may we assist you today?") ]
              position := { area := "hero", order := 0 } }
          , { type := "SuggestionCards"
              props := .staticProps
                [ ("suggestions", .plist
                    [ .pobj [ ("text", .pstr "Browse New Arrivals")
                            , ("intent", .pstr "product_browse") ]
                    , .pobj [ ("text", .pstr "Book Styling Session")
                            , ("intent", .pstr "appointment") ]
                    , .pobj [ ("text", .pstr "Explore Collections")
                            , ("intent", .pstr "brand_story") ] ]) ]
              position := { area := "main", order := 1 } } ]
        layout := some "centered"
        animation := some
          { enter := some "fadeInUp", duration := some (mkRat 6 10)
            stagger := some (mkRat 2 10) } } }

/-- Rule `browse_rule` of IntentMapper.initializeMappingRules. -/
def browseRule : MappingRule :=
  { id := "browse_rule"
    condition := fun a =>
      a.intent.type == "product_browse"
        && decide (mkRat 6 10 < a.intent.confidence)
    instruction :=
      { action := "add"
        components := some
          [ { type := "ProductGrid"
              props := .derivedProps (fun a =>
                [ ("filters", .pobj (extractFilters a.entities))
                , ("initialProducts", .pnum 12)
                , ("enableInfiniteScroll", .pbool true) ])
              position := { area := "main", order := 0 } }
          , { type := "FilterPanel"
              props := .derivedProps (fun a =>
                [ ("availableFilters", .plist
                    ((getAvailableFilters a.entities).map .pstr))
                , ("activeFilters", .pobj (extractFilters a.entities))
                , ("position", .pstr "sidebar") ])
              position := { area := "sidebar", order := 0 } } ]
        layout := some "two-column"
        animation := some { enter := some "slideIn", duration := some (mkRat 5 10) } } }

/-- Rule `detail_rule` of IntentMapper.initializeMappingRules. -/
def detailRule : MappingRule :=
  { id := "detail_rule"
    condition := fun a =>
      a.intent.type == "product_detail" && truthy (jsGet a.entities "productId")
    instruction :=
      { action := "add"
        components := some
          [ { type := "ProductDetailView"
              props := .derivedProps (fun a =>
                [ ("productId", jsGet a.entities "productId")
                , ("showCraftsmanship", .pbool true)
                , ("enable360View", .pbool true) ])
              position := { area := "main", order := 0 } }
          , { type := "RelatedProducts"
              props := .derivedProps (fun a =>
                [ ("productId", jsGet a.entities "productId")
                , ("maxItems", .pnum 4) ])
              position := { area := "bottom", order := 1 } } ]
        layout := some "full-width"
        animation := some { enter := some "fadeIn", duration := some (mkRat 4 10) } } }

/-- Rule `style_advice_rule` of IntentMapper.initializeMappingRules. -/
def styleAdviceRule : MappingRule :=
  { id := "style_advice_rule"
    condition := fun a => a.intent.type == "style_advice"
    instruction :=
      { action := "add"
        components := some
          [ { type := "StyleAdvisor"
              props := .derivedProps (fun a =>
                [ ("occasion", jsGet a.entities "occasion")
                , ("preferences", .pobj a.entities)
                , ("mode", .pstr "interactive") ])
              position := { area := "main", order := 0 } }
          , { type := "OutfitBuilder"
              props := .staticProps
                [ ("allowMixMatch", .pbool true)
                , ("showPricing", .pbool true) ]
              position := { area := "sidebar", order := 0 } } ]
        layout := some "split-view"
        animation := some
          { enter := some "slideInFromRight", duration := some (mkRat 5 10) } } }

/-- Rule `store_visit_rule` of IntentMapper.initializeMappingRules. -/
def storeVisitRule : MappingRule :=
  { id := "store_visit_rule"
    condition := fun a => a.intent.type == "store_visit"
    instruction :=
      { action := "add"
        components := some
          [ { type := "StoreLocator"
              props := .staticProps
                [ ("showMap", .pbool true)
                , ("enableGeolocation", .pbool true) ]
              position := { area := "main", order := 0 } }
          , { type := "AppointmentScheduler"
              props := .staticProps
                [ ("serviceTypes", .plist
                    [ .pstr "personal-shopping"
                    , .pstr "styling-consultation" ])
                , ("showAvailability", .pbool true) ]
              position := { area := "sidebar", order := 0 } } ]
        layout := some "map-view"
        animation := some
          { enter := some "expandFromCenter", duration := some (mkRat 6 10) } } }

/-- Rule `urgency_modifier` of IntentMapper.initializeMappingRules. -/
def urgencyModifierRule : MappingRule :=
  { id := "urgency_modifier"
    condition := fun a =>
      a.urgency == "high" && decide (mkRat 8 10 < a.intent.confidence)
    instruction :=
      { action := "modify"
        modifications := some
          { animation := some { duration := some (mkRat 3 10), enter := some "instant" }
            props := some
              [ ("priority", .pstr "high")
              , ("showQuickActions", .pbool true) ] } } }

/-- The fixed, ordered rule list of IntentMapper. -/
def mappingRules : List MappingRule :=
  [greetingRule, browseRule, detailRule, styleAdviceRule,
   storeVisitRule, urgencyModifierRule]

/-- IntentMapper.evaluateRule. The try/catch collapses because every
translated condition is total. -/
def evaluateRule (r : MappingRule) (a : IntentAnalysis) : Bool :=
  r.condition a

/-- The draft instruction `mergeInstructions` starts from. -/
def baseInstructionM : UIInstructionM :=
  { action := "add"
    components := []
    layout := "default"
    animation :=
      { enter := some "fadeIn", exit := some "fadeOut", duration := some (mkRat 5 10) }
    topProps := none }

/-- Appending one synthesized instance for a component definition; the id is
the type name with the oracle's suffix, the delay is the current component
count times 0.1 (mergeInstructions, the forEach over instruction.components). -/
def pushDefinition (fresh : ℕ → String) (a : IntentAnalysis)
    (acc : UIInstructionM) (d : ComponentDefinition) : UIInstructionM :=
  { acc with components := acc.components ++
      [ { id := d.type ++ "-" ++ fresh acc.components.length
          type := d.type
          props := evalProps d.props a
          position := d.position
          animationDelay := some (mkRat acc.components.length 10) } ] }

/-- One iteration of the rule fold in IntentMapper.mergeInstructions. -/
def applyRule (fresh : ℕ → String) (a : IntentAnalysis)
    (acc : UIInstructionM) (r : MappingRule) : UIInstructionM :=
  let instr := r.instruction
  if instr.action == "modify" then
    match instr.modifications with
    | some mods =>
      let acc1 := match mods.animation with
        | some an => { acc with animation := an }
        | none => acc
      match mods.props with
      | some p => { acc1 with topProps := some p }
      | none => acc1
    | none => acc
  else
    let acc1 := match instr.components with
      | some defs => defs.foldl (pushDefinition fresh a) acc
      | none => acc
    let acc2 := match instr.layout with
      | some l => { acc1 with layout := l }
      | none => acc1
    match instr.animation with
    | some an => { acc2 with animation := animSpread acc2.animation an }
    | none => acc2

/-- IntentMapper.mergeInstructions. -/
def mergeInstructions (rules : List MappingRule) (a : IntentAnalysis)
    (fresh : ℕ → String) : UIInstructionM :=
  rules.foldl (applyRule fresh a) baseInstructionM

/-- IntentMapper.getDefaultInstruction. -/
def getDefaultInstruction (now : ℕ) : UIInstructionM :=
  { action := "add"
    components :=
      [ { id := "help-" ++ toString now
          type := "HelpPanel"
          props :=
            [ ("message", .pstr ("I" ++ apoS ++
                "m here to help. What would you like to explore?"))
            , ("showSuggestions", .pbool true) ]
          position := { area := "main", order := 0 }
          animationDelay := none } ]
    layout := "centered"
    animation :=
      { enter := some "fadeIn", exit := some "fadeOut", duration := some (mkRat 3 10) }
    topProps := none }

/-- IntentMapper.mapToUIInstructions. -/
def mapToUIInstructions (a : IntentAnalysis) (fresh : ℕ → String)
    (now : ℕ) : UIInstructionM :=
  let matching := mappingRules.filter (fun r => evaluateRule r a)
  if matching.isEmpty then getDefaultInstruction now
  else mergeInstructions matching a fresh

/-! ## Association-list model of string-keyed `Map` -/

/-- `Map.get`. -/
def listGet {α : Type} : List (String × α) → String → Option α
  | [], _ => none
  | (k', v') :: rest, k => if k' = k then some v' else listGet rest k

/-- `Map.set`: replace in place when the key exists, append otherwise. -/
def listSet {α : Type} : List (String × α) → String → α → List (String × α)
  | [], k, v => [(k, v)]
  | (k', v') :: rest, k, v =>
    if k' = k then (k, v) :: rest else (k', v') :: listSet rest k v

/-- `Map.delete`: remove the entry of the key, keeping the others in order. -/
def listDel {α : Type} : List (String × α) → String → List (String × α)
  | [], _ => []
  | (k', v') :: rest, k => if k' = k then rest else (k', v') :: listDel rest k

/-- The keys of the map are pairwise distinct, as they are in a `Map`. -/
def NodupKeys {α : Type} (m : List (String × α)) : Prop :=
  (m.map Prod.fst).Nodup

/-! ## Component registry (ComponentRegistry.ts) -/

/-- The `category` of `ComponentMetadata`. -/
inductive MetaCategory where
  | display
  | input
  | layoutCat
  | feedback
deriving DecidableEq

/-- ComponentRegistry.ts, interface ComponentMetadata. -/
structure ComponentMetadata where
  category : MetaCategory
  description : String
  requiredProps : Option (List String) := none
  optionalProps : Option (List String) := none
deriving DecidableEq

/-- The registry's two maps. The renderable capability is an opaque React
component type, so it is a type parameter. -/
structure Registry (Cap : Type) where
  components : List (String × Cap)
  metadata : List (String × ComponentMetadata)

/-- The registry a fresh singleton starts from. -/
def Registry.empty {Cap : Type} : Registry Cap :=
  { components := [], metadata := [] }

/-- ComponentRegistry.register: always rebind the capability; write the
metadata only when the call supplies one. -/
def Registry.register {Cap : Type} (r : Registry Cap) (name : String)
    (component : Cap) (metadata : Option ComponentMetadata) : Registry Cap :=
  { components := listSet r.components name component
    metadata := match metadata with
      | some m => listSet r.metadata name m
      | none => r.metadata }

/-- ComponentRegistry.get. -/
def Registry.get {Cap : Type} (r : Registry Cap) (name : String) : Option Cap :=
  listGet r.components name

/-- ComponentRegistry.getMetadata. -/
def Registry.getMetadata {Cap : Type} (r : Registry Cap) (name : String) :
    Option ComponentMetadata :=
  listGet r.metadata name

/-- ComponentRegistry.has. -/
def Registry.hasName {Cap : Type} (r : Registry Cap) (name : String) : Bool :=
  (r.get name).isSome

/-- ComponentRegistry.getComponentNames. -/
def Registry.getComponentNames {Cap : Type} (r : Registry Cap) : List String :=
  r.components.map Prod.fst

/-! ## Assembly engine (AssemblyEngine.ts) -/

/-- The component status union of AssemblyEngine.ts, interface ComponentState:
exactly the three values the code ever stores. -/
inductive CStatus where
  | mounting
  | mounted
  | unmounting
deriving DecidableEq

/-- AssemblyEngine.ts, interface Position. -/
structure Position where
  area : String
  order : ℕ
  width : Option String := none
  maxWidth : Option String := none
  gridColumn : Option ℕ := none
  gridRow : Option ℕ := none
deriving DecidableEq

/-- AssemblyEngine.ts, interface ComponentInstance (the wire-level instance
the engine consumes). -/
structure ComponentInstanceE where
  id : String
  type : String
  props : List (String × PropValue)
  position : Position
  animationDelay : Option ℚ := none

/-- AssemblyEngine.ts, interface ComponentState extends ComponentInstance. -/
structure ComponentState extends ComponentInstanceE where
  status : CStatus
  mountedAt : ℕ

/-- The engine's `activeComponents` map. -/
abbrev EngineMap := List (String × ComponentState)

/-- `Partial Position` of a component update. -/
structure PositionUpdate where
  area : Option String := none
  order : Option ℕ := none
  width : Option String := none
  maxWidth : Option String := none
  gridColumn : Option ℕ := none
  gridRow : Option ℕ := none

/-- AssemblyEngine.ts, interface ComponentUpdate. -/
structure ComponentUpdate where
  id : String
  props : Option (List (String × PropValue)) := none
  position : Option PositionUpdate := none

/-- The spread `\x7b...component.position, ...update.position\x7d` on the
fixed field set of `Position`. -/
def mergePosition (p : Position) (u : PositionUpdate) : Position :=
  { area := u.area.getD p.area
    order := u.order.getD p.order
    width := u.width <|> p.width
    maxWidth := u.maxWidth <|> p.maxWidth
    gridColumn := u.gridColumn <|> p.gridColumn
    gridRow := u.gridRow <|> p.gridRow }

/-- AssemblyEngine.ts, interface UIInstruction (the engine-side one). -/
structure UIInstructionE where
  action : String
  components : Option (List ComponentInstanceE) := none
  componentIds : Option (List String) := none
  updates : Option (List ComponentUpdate) := none
  layout : Option String := none
  animation : Option AnimationObj := none

/-- States after each mutation of a loop body, for the lifecycle claims. -/
def traceFold {α : Type} (f : EngineMap → α → EngineMap) :
    EngineMap → List α → List EngineMap
  | _, [] => []
  | m, a :: rest =>
    let m1 := f m a
    m1 :: traceFold f m1 rest

/-- One iteration of the first loop of AssemblyEngine.addComponents: skip an
unregistered type, otherwise insert the instance with status `mounting`. -/
def insertStep (reg : String → Bool) (now : ℕ) (m : EngineMap)
    (c : ComponentInstanceE) : EngineMap :=
  if reg c.type then
    listSet m c.id { toComponentInstanceE := c, status := .mounting, mountedAt := now }
  else m

/-- One iteration of the second loop of addComponents: set a present
component's status to `mounted`. -/
def mountStep (m : EngineMap) (c : ComponentInstanceE) : EngineMap :=
  match listGet m c.id with
  | some st => listSet m c.id { st with status := .mounted }
  | none => m

/-- AssemblyEngine.addComponents: insert the registered instances as
`mounting`, await the batch of enter animations, then mark them `mounted`. -/
def addComponentsFinal (reg : String → Bool) (now : ℕ) (m : EngineMap)
    (comps : List ComponentInstanceE) : EngineMap :=
  let m1 := comps.foldl (insertStep reg now) m
  comps.foldl mountStep m1

/-- The intermediate states addComponents steps through. -/
def addComponentsTrace (reg : String → Bool) (now : ℕ) (m : EngineMap)
    (comps : List ComponentInstanceE) : List EngineMap :=
  traceFold (insertStep reg now) m comps
    ++ traceFold mountStep (comps.foldl (insertStep reg now) m) comps

/-- One iteration of the loop of AssemblyEngine.removeComponents: a present
component's status becomes `unmounting`, a missing id is skipped. -/
def unmountStep (m : EngineMap) (id : String) : EngineMap :=
  match listGet m id with
  | some c => listSet m id { c with status := .unmounting }
  | none => m

/-- The ids whose exit animation (and deferred deletion) gets scheduled:
those found in the map. The loop only rewrites statuses, so presence during
the loop equals presence in the map it started from. -/
def removeScheduled (m : EngineMap) (ids : List String) : List String :=
  ids.filter (fun id => (listGet m id).isSome)

/-- One iteration of removeComponents without an animation config: transition
to `unmounting`, then delete at once. -/
def removeStepNoAnim (m : EngineMap) (id : String) : EngineMap :=
  match listGet m id with
  | some c => listDel (listSet m id { c with status := .unmounting }) id
  | none => m

/-- AssemblyEngine.removeComponents: with an animation config the deletions
run when the exit animations settle, after the scheduling loop; without one
each present id is deleted in the loop itself. -/
def removeComponentsFinal (m : EngineMap) (ids : List String)
    (anim : Option AnimationObj) : EngineMap :=
  match anim with
  | some _ => (removeScheduled m ids).foldl listDel (ids.foldl unmountStep m)
  | none => ids.foldl removeStepNoAnim m

/-- The intermediate states of removeComponents without animation: the
`unmounting` write and the deletion are separate mutations. -/
def removeTraceNoAnim : EngineMap → List String → List EngineMap
  | _, [] => []
  | m, id :: rest =>
    match listGet m id with
    | some c =>
      let mu := listSet m id { c with status := .unmounting }
      let md := listDel mu id
      mu :: md :: removeTraceNoAnim md rest
    | none => m :: removeTraceNoAnim m rest

/-- The intermediate states removeComponents steps through. -/
def removeComponentsTrace (m : EngineMap) (ids : List String)
    (anim : Option AnimationObj) : List EngineMap :=
  match anim with
  | some _ => traceFold unmountStep m ids
      ++ traceFold listDel (ids.foldl unmountStep m) (removeScheduled m ids)
  | none => removeTraceNoAnim m ids

/-- One iteration of AssemblyEngine.updateComponents: shallow-merge the props
and, when the update carries one, the position fields; missing ids are
skipped; the status is not touched. -/
def updateStep (m : EngineMap) (u : ComponentUpdate) : EngineMap :=
  match listGet m u.id with
  | some c => listSet m u.id
      { c with
        props := jsSpread c.props (u.props.getD [])
        position := match u.position with
          | some pu => mergePosition c.position pu
          | none => c.position }
  | none => m

/-- AssemblyEngine.updateComponents. -/
def updateComponentsFinal (m : EngineMap) (us : List ComponentUpdate) :
    EngineMap :=
  us.foldl updateStep m

/-- The fixed sidebar membership test of the two-column layout. -/
def isSidebarType (t : String) : Bool :=
  ["FilterPanel", "NavigationPanel"].contains t

/-- Building the positions `Map` by successive `Map.set`. -/
def posEntriesToMap (entries : List (String × Position)) :
    List (String × Position) :=
  entries.foldl (fun m kv => listSet m kv.1 kv.2) []

/-- LayoutEngine.calculatePositions. -/
def calculatePositions (components : List ComponentState) (layout : String) :
    List (String × Position) :=
  match layout with
  | "centered" =>
    posEntriesToMap (components.enum.map (fun p =>
      (p.2.id, { area := "center", order := p.1
                 width := some "100%", maxWidth := some "600px" })))
  | "two-column" =>
    let sidebarComponents := components.filter (fun c => isSidebarType c.type)
    let mainComponents := components.filter (fun c => !isSidebarType c.type)
    posEntriesToMap
      (sidebarComponents.enum.map (fun p =>
        (p.2.id, { area := "sidebar", order := p.1, width := some "300px" }))
      ++ mainComponents.enum.map (fun p =>
        (p.2.id, { area := "main", order := p.1, width := some "100%" })))
  | "grid" =>
    posEntriesToMap (components.enum.map (fun p =>
      (p.2.id, { area := "grid", order := p.1, width := some "auto"
                 gridColumn := some (p.1 % 3 + 1)
                 gridRow := some (p.1 / 3 + 1) })))
  | _ =>
    posEntriesToMap (components.enum.map (fun p =>
      (p.2.id, { area := "main", order := p.1, width := some "100%" })))

/-- One iteration of the positions.forEach of reorganizeLayout. -/
def posStep (m : EngineMap) (kv : String × Position) : EngineMap :=
  match listGet m kv.1 with
  | some c => listSet m kv.1 { c with position := kv.2 }
  | none => m

/-- AssemblyEngine.reorganizeLayout on the component map. -/
def reorganizeFinal (m : EngineMap) (layout : String) : EngineMap :=
  (calculatePositions (m.map Prod.snd) layout).foldl posStep m

/-- The assembly engine's state: the active component map, the layout
engine's remembered key, and the single optional subscriber. The subscriber
callback is opaque, so it is carried as a value of an arbitrary type. -/
structure Engine (σ : Type) where
  components : EngineMap
  currentLayout : String
  updateCallback : Option σ

/-- A freshly constructed AssemblyEngine. -/
def Engine.initial {σ : Type} : Engine σ :=
  { components := [], currentLayout := "default", updateCallback := none }

/-- AssemblyEngine.onUpdate: the single callback slot is overwritten. -/
def Engine.onUpdate {σ : Type} (e : Engine σ) (s : σ) : Engine σ :=
  { e with updateCallback := some s }

/-- AssemblyEngine.ts, interface AssemblyState. -/
structure AssemblyState where
  components : List ComponentState
  layout : String
  timestamp : ℕ

/-- AssemblyEngine.getState. -/
def Engine.getState {σ : Type} (e : Engine σ) (now : ℕ) : AssemblyState :=
  { components := e.components.map Prod.snd
    layout := e.currentLayout
    timestamp := now }

/-- The dispatch of AssemblyEngine.processInstruction on the component map;
an unknown action only logs a warning. -/
def applyInstrMap (reg : String → Bool) (now : ℕ) (m : EngineMap)
    (i : UIInstructionE) : EngineMap :=
  if i.action = "add" then addComponentsFinal reg now m (i.components.getD [])
  else if i.action = "remove" then
    removeComponentsFinal m (i.componentIds.getD []) i.animation
  else if i.action = "update" then updateComponentsFinal m (i.updates.getD [])
  else if i.action = "reorganize" then reorganizeFinal m (i.layout.getD "default")
  else m

/-- The intermediate states one instruction steps through. -/
def applyInstrTrace (reg : String → Bool) (now : ℕ) (m : EngineMap)
    (i : UIInstructionE) : List EngineMap :=
  if i.action = "add" then addComponentsTrace reg now m (i.components.getD [])
  else if i.action = "remove" then
    removeComponentsTrace m (i.componentIds.getD []) i.animation
  else if i.action = "update" then traceFold updateStep m (i.updates.getD [])
  else if i.action = "reorganize" then
    traceFold posStep m (calculatePositions (m.map Prod.snd) (i.layout.getD "default"))
  else []

/-- processInstruction at the engine level: apply, then notify the current
subscriber (if any) with the fresh snapshot. calculatePositions records the
layout key, so a reorganize updates `currentLayout`. -/
def Engine.processInstruction {σ : Type} (reg : String → Bool) (now : ℕ)
    (e : Engine σ) (i : UIInstructionE) : Engine σ × List (σ × AssemblyState) :=
  let e1 : Engine σ :=
    { components := applyInstrMap reg now e.components i
      currentLayout :=
        if i.action = "reorganize" then i.layout.getD "default"
        else e.currentLayout
      updateCallback := e.updateCallback }
  (e1, match e1.updateCallback with
    | some s => [(s, e1.getState now)]
    | none => [])

/-- Running a sequence of instructions, each with its own clock value. -/
def runInstrs (reg : String → Bool) :
    EngineMap → List (ℕ × UIInstructionE) → EngineMap
  | m, [] => m
  | m, (now, i) :: rest => runInstrs reg (applyInstrMap reg now m i) rest

/-- All intermediate states of a sequence of instructions. -/
def seqTrace (reg : String → Bool) :
    EngineMap → List (ℕ × UIInstructionE) → List EngineMap
  | _, [] => []
  | m, (now, i) :: rest =>
    applyInstrTrace reg now m i ++ seqTrace reg (applyInstrMap reg now m i) rest

/-! ## The spec's lifecycle state machine, and the edges the code realizes -/

/-- The lifecycle states named by the specification's state machine. -/
inductive SpecLifecycle where
  | Pending
  | Mounting
  | Mounted
  | Updating
  | Unmounting
  | Removed
deriving DecidableEq

/-- The spec-level reading of a stored status. -/
def specOf : CStatus → SpecLifecycle
  | .mounting => .Mounting
  | .mounted => .Mounted
  | .unmounting => .Unmounting

/-- The lifecycle change one mutation may make to one id: unchanged,
inserted as `mounting`, `mounting → mounted`, `mounted → unmounting`, or
deleted while `unmounting`. -/
def statusEdge : Option CStatus → Option CStatus → Prop
  | none, none => True
  | none, some s => s = .mounting
  | some s, none => s = .unmounting
  | some s1, some s2 =>
    s1 = s2 ∨ (s1 = .mounting ∧ s2 = .mounted)
      ∨ (s1 = .mounted ∧ s2 = .unmounting)

/-- Between two adjacent intermediate states, every id moves along an
allowed lifecycle edge. -/
def LifecycleEdge (m1 m2 : EngineMap) : Prop :=
  ∀ id, statusEdge ((listGet m1 id).map (fun c => c.status))
    ((listGet m2 id).map (fun c => c.status))

/-- A state list is a chain for `R` from `m`. -/
def ChainOK (R : EngineMap → EngineMap → Prop) : EngineMap → List EngineMap → Prop
  | _, [] => True
  | m, x :: xs => R m x ∧ ChainOK R x xs

/-- Every component in the map is `mounted` (the steady state between
instructions). -/
def AllMounted (m : EngineMap) : Prop :=
  ∀ id c, listGet m id = some c → c.status = .mounted

/-- Well-formedness of one instruction against the current map: an add batch
carries pairwise distinct ids not yet in the active set — the id-uniqueness
invariant of the data model. -/
def wfInstr (m : EngineMap) (i : UIInstructionE) : Prop :=
  i.action = "add" →
    (((i.components.getD []).map (fun c => c.id)).Nodup
      ∧ ∀ c ∈ i.components.getD [], listGet m c.id = none)

/-- Well-formedness of an instruction sequence, each against the state the
previous ones produced. -/
def wfSeq (reg : String → Bool) :
    EngineMap → List (ℕ × UIInstructionE) → Prop
  | _, [] => True
  | m, (now, i) :: rest =>
    wfInstr m i ∧ wfSeq reg (applyInstrMap reg now m i) rest

/-! ## Derived quantities and concrete fixtures used by the theorems -/

/-- The per-index stagger of synthesized components, 0.1 s. -/
def staggerUnit : ℚ := mkRat 1 10

/-- How many component instances a matched rule contributes during merge:
none for a modify rule, its definition count otherwise. -/
def addDefsCount (r : MappingRule) : ℕ :=
  if r.instruction.action == "modify" then 0
  else (r.instruction.components.getD []).length

/-- The delays of a component list are `k/10, (k+1)/10, ...` in order. -/
def delaysFrom : ℕ → List ComponentInstanceM → Prop
  | _, [] => True
  | k, c :: rest => c.animationDelay = some (mkRat k 10) ∧ delaysFrom (k + 1) rest

/-- A fixed id-suffix oracle for concrete evaluations. -/
def freshR : ℕ → String := fun _ => "r"

/-- Scenario B of the specification: `product_browse`, confidence 0.75,
urgency high. -/
def scenB : IntentAnalysis :=
  { intent := { type := "product_browse", confidence := mkRat 75 100 }
    entities := []
    urgency := "high" }

/-- Scenario B with the confidence raised to 0.85, above the urgency rule
threshold. -/
def scenBHigh : IntentAnalysis :=
  { intent := { type := "product_browse", confidence := mkRat 85 100 }
    entities := []
    urgency := "high" }

/-- An analysis no mapping rule matches. -/
def scenNoMatch : IntentAnalysis :=
  { intent := { type := "checkout", confidence := mkRat 5 10 }
    entities := []
    urgency := "low" }

/-- A registry test: only `WelcomeHero` is registered. -/
def regW : String → Bool := fun t => t == "WelcomeHero"

/-- A concrete wire-level instance of a registered type. -/
def cW : ComponentInstanceE :=
  { id := "w1", type := "WelcomeHero", props := []
    position := { area := "hero", order := 0 } }

/-- The Add instruction carrying `cW` with an animation config. -/
def addInstrW : UIInstructionE :=
  { action := "add", components := some [cW]
    animation := some { enter := some "fadeIn", duration := some (mkRat 5 10) } }

/-- A Remove instruction for `cW` with an animation config. -/
def removeInstrW : UIInstructionE :=
  { action := "remove", componentIds := some ["w1"]
    animation := some { exit := some "fadeOut", duration := some (mkRat 3 10) } }

/-- Metadata used by the registry counterexample. -/
def c3Meta : ComponentMetadata :=
  { category := .display, description := "original metadata" }

/-- A mounted FilterPanel component state. -/
def csFP : ComponentState :=
  { toComponentInstanceE :=
      { id := "f1", type := "FilterPanel", props := []
        position := { area := "sidebar", order := 0 } }
    status := .mounted, mountedAt := 0 }

/-- A mounted ProductGrid component state. -/
def csPG : ComponentState :=
  { toComponentInstanceE :=
      { id := "p1", type := "ProductGrid", props := [("a", .pnum 1)]
        position := { area := "main", order := 0 } }
    status := .mounted, mountedAt := 0 }

/-- A concrete two-component active map. -/
def mapFix : EngineMap := [("f1", csFP), ("p1", csPG)]

/-- A concrete update record for `f1`. -/
def updFix : ComponentUpdate :=
  { id := "f1", props := some [("x", .pnum 2)]
    position := some { order := some 5 } }

/-- A concrete engine owning `mapFix`. -/
def engFix : Engine ℕ :=
  { components := mapFix, currentLayout := "default", updateCallback := none }

/-! ## Map lemmas -/

theorem listGet_eq_none_of_not_mem_keys {α : Type} {m : List (String × α)}
    {k : String} (h : k ∉ m.map Prod.fst) : listGet m k = none := by
  induction m with
  | nil => rfl
  | cons kv rest ih =>
    simp only [List.map_cons, List.mem_cons, not_or] at h
    have hk : kv.1 ≠ k := fun hh => h.1 hh.symm
    simp only [listGet, if_neg hk]
    exact ih h.2

theorem not_mem_keys_of_listGet_none {α : Type} {m : List (String × α)}
    {k : String} (h : listGet m k = none) : k ∉ m.map Prod.fst := by
  induction m with
  | nil => simp
  | cons kv rest ih =>
    by_cases hk : kv.1 = k
    · simp [listGet, hk] at h
    · simp only [listGet, if_neg hk] at h
      simp only [List.map_cons, List.mem_cons, not_or]
      exact ⟨fun hh => hk hh.symm, ih h⟩

theorem listGet_set_self {α : Type} (m : List (String × α)) (k : String) (v : α) :
    listGet (listSet m k v) k = some v := by
  induction m with
  | nil => simp [listSet, listGet]
  | cons kv rest ih =>
    by_cases h : kv.1 = k
    · simp [listSet, listGet, h]
    · simpa [listSet, listGet, h] using ih

theorem listGet_set_ne {α : Type} (m : List (String × α)) (k k' : String) (v : α)
    (h : k' ≠ k) : listGet (listSet m k v) k' = listGet m k' := by
  have h' : k ≠ k' := Ne.symm h
  induction m with
  | nil => simp [listSet, listGet, if_neg h']
  | cons kv rest ih =>
    by_cases hk : kv.1 = k
    · subst hk
      simp [listSet, listGet, if_neg h']
    · by_cases hk' : kv.1 = k'
      · simp [listSet, listGet, if_neg hk, hk', if_neg h]
      · simpa [listSet, listGet, if_neg hk, hk'] using ih

theorem listGet_del_self {α : Type} (m : List (String × α)) (k : String)
    (h : NodupKeys m) : listGet (listDel m k) k = none := by
  induction m with
  | nil => rfl
  | cons kv rest ih =>
    simp only [NodupKeys, List.map_cons, List.nodup_cons] at h
    by_cases hk : kv.1 = k
    · subst hk
      simp only [listDel, if_pos rfl]
      exact listGet_eq_none_of_not_mem_keys h.1
    · simp only [listDel, if_neg hk, listGet, if_neg hk]
      exact ih h.2

theorem listGet_del_ne {α : Type} (m : List (String × α)) (k k' : String)
    (h : k' ≠ k) : listGet (listDel m k) k' = listGet m k' := by
  induction m with
  | nil => rfl
  | cons kv rest ih =>
    by_cases hk : kv.1 = k
    · subst hk
      have : kv.1 ≠ k' := Ne.symm h
      simp [listDel, listGet, if_neg this]
    · by_cases hk' : kv.1 = k'
      · simp [listDel, listGet, if_neg hk, hk', if_neg h]
      · simpa [listDel, listGet, if_neg hk, hk'] using ih

theorem listGet_del_none {α : Type} (m : List (String × α)) (k k' : String)
    (h : listGet m k' = none) : listGet (listDel m k) k' = none := by
  induction m with
  | nil => rfl
  | cons kv rest ih =>
    by_cases hk' : kv.1 = k'
    · simp [listGet, hk'] at h
    · simp only [listGet, if_neg hk'] at h
      by_cases hk : kv.1 = k
      · simpa [listDel, if_pos hk, listGet, if_neg hk'] using h
      · simp only [listDel, if_neg hk, listGet, if_neg hk']
        exact ih h

theorem keys_listSet_mem {α : Type} (m : List (String × α)) (k : String) (v : α)
    (h : listGet m k ≠ none) :
    (listSet m k v).map Prod.fst = m.map Prod.fst := by
  induction m with
  | nil => simp [listGet] at h
  | cons kv rest ih =>
    by_cases hk : kv.1 = k
    · simp [listSet, hk]
    · simp only [listGet, if_neg hk] at h
      simp [listSet, if_neg hk, ih h]

theorem keys_listSet_new {α : Type} (m : List (String × α)) (k : String) (v : α)
    (h : listGet m k = none) :
    (listSet m k v).map Prod.fst = m.map Prod.fst ++ [k] := by
  induction m with
  | nil => simp [listSet]
  | cons kv rest ih =>
    by_cases hk : kv.1 = k
    · simp [listGet, hk] at h
    · simp only [listGet, if_neg hk] at h
      simp [listSet, if_neg hk, ih h]

theorem nodup_listSet {α : Type} (m : List (String × α)) (k : String) (v : α)
    (h : NodupKeys m) : NodupKeys (listSet m k v) := by
  by_cases hg : listGet m k = none
  · simp only [NodupKeys, keys_listSet_new m k v hg]
    refine List.Nodup.append h (List.nodup_singleton k) ?_
    intro a ha hb
    simp only [List.mem_singleton] at hb
    subst hb
    exact not_mem_keys_of_listGet_none hg ha
  · simp only [NodupKeys, keys_listSet_mem m k v hg]
    exact h

theorem keys_listDel_sub {α : Type} (m : List (String × α)) (k : String) :
    List.Sublist ((listDel m k).map Prod.fst) (m.map Prod.fst) := by
  induction m with
  | nil => simp [listDel]
  | cons kv rest ih =>
    by_cases hk : kv.1 = k
    · simp only [listDel, if_pos hk, List.map_cons]
      exact List.Sublist.cons _ (List.Sublist.refl _)
    · simp only [listDel, if_neg hk, List.map_cons]
      exact List.Sublist.cons₂ _ ih

theorem nodup_listDel {α : Type} (m : List (String × α)) (k : String)
    (h : NodupKeys m) : NodupKeys (listDel m k) :=
  List.Nodup.sublist (keys_listDel_sub m k) h

/-! ## C1: Scenario B -/

/-- C1 counterexample: at the stated confidence 0.75, the urgency-modifier
rule does not match (its condition requires confidence above 0.8), only the
browse rule does, and the returned instruction carries the browse rule's
animation (duration 0.5, enter "slideIn"), not the urgency override. -/
theorem c1_counterexample :
    evaluateRule urgencyModifierRule scenB = false
    ∧ (mappingRules.filter (fun r => evaluateRule r scenB)).map (fun r => r.id)
        = ["browse_rule"]
    ∧ (mapToUIInstructions scenB freshR 0).animation
        = { enter := some "slideIn", exit := some "fadeOut"
            duration := some (mkRat 5 10), stagger := none }
    ∧ ¬((mapToUIInstructions scenB freshR 0).animation.duration
        = some (mkRat 3 10)) :=
  ⟨by decide, by decide, by decide, by decide⟩

/-- C1 amended: with the confidence raised above the urgency rule's 0.8
threshold (0.85), mapToUIInstructions matches both the browse rule and the
urgency-modifier rule, and the returned instruction carries the browse
rule's components (ProductGrid, FilterPanel) together with the urgency
rule's animation override (duration 0.3, enter "instant"). -/
theorem c1_theorem :
    evaluateRule browseRule scenBHigh = true
    ∧ evaluateRule urgencyModifierRule scenBHigh = true
    ∧ (mappingRules.filter (fun r => evaluateRule r scenBHigh)).map
        (fun r => r.id) = ["browse_rule", "urgency_modifier"]
    ∧ (mapToUIInstructions scenBHigh freshR 0).components.map (fun c => c.type)
        = ["ProductGrid", "FilterPanel"]
    ∧ (mapToUIInstructions scenBHigh freshR 0).animation.duration
        = some (mkRat 3 10)
    ∧ (mapToUIInstructions scenBHigh freshR 0).animation.enter
        = some "instant" :=
  ⟨by decide, by decide, by decide, rfl, by decide, rfl⟩

/-! ## C3: registry rebinding -/

/-- C3 counterexample: re-registering "X" without metadata replaces the
capability but keeps the prior registration's metadata paired with it, so a
part of the prior binding survives the rebind. -/
theorem c3_counterexample :
    (((Registry.empty : Registry ℕ).register "X" 1 (some c3Meta)).register
        "X" 2 none).get "X" = some 2
    ∧ (((Registry.empty : Registry ℕ).register "X" 1 (some c3Meta)).register
        "X" 2 none).getMetadata "X" = some c3Meta :=
  ⟨rfl, rfl⟩

/-- C3 amended: register always rebinds the capability, leaving exactly one
capability binding for the name and touching no other name; the metadata is
replaced only when the call supplies metadata — otherwise the prior
metadata survives alongside the new capability. -/
theorem c3_theorem {Cap : Type} (r : Registry Cap) (name : String) (cap : Cap)
    (meta : Option ComponentMetadata) :
    (r.register name cap meta).get name = some cap
    ∧ (r.register name cap meta).getMetadata name
        = (match meta with
            | some m => some m
            | none => r.getMetadata name)
    ∧ (∀ n2, n2 ≠ name → (r.register name cap meta).get n2 = r.get n2
        ∧ (r.register name cap meta).getMetadata n2 = r.getMetadata n2)
    ∧ (NodupKeys r.components → NodupKeys (r.register name cap meta).components) := by
  refine ⟨listGet_set_self _ _ _, ?_, ?_, fun h => nodup_listSet _ _ _ h⟩
  · cases meta with
    | some m => exact listGet_set_self _ _ _
    | none => rfl
  · intro n2 hn
    refine ⟨listGet_set_ne _ _ _ _ hn, ?_⟩
    cases meta with
    | some m => exact listGet_set_ne _ _ _ _ hn
    | none => rfl

/-- Witness for C3's amended theorem at a concrete registry. -/
theorem c3_witness :
    ((Registry.empty : Registry ℕ).register "X" 1 (some c3Meta)).get "X" = some 1
    ∧ ((Registry.empty : Registry ℕ).register "X" 1 (some c3Meta)).get "Y"
        = (Registry.empty : Registry ℕ).get "Y" :=
  ⟨(c3_theorem (Registry.empty : Registry ℕ) "X" 1 (some c3Meta)).1,
   ((c3_theorem (Registry.empty : Registry ℕ) "X" 1 (some c3Meta)).2.2.1 "Y"
     (by decide)).1⟩

/-! ## C5: fallback instruction -/

/-- C5: when no rule matches, mapToUIInstructions returns exactly the fixed
fallback: a single HelpPanel component, layout "centered", the short 0.3 s
fade animation; in particular the instruction is never empty. -/
theorem c5_theorem (a : IntentAnalysis) (fresh : ℕ → String) (now : ℕ)
    (h : ∀ r ∈ mappingRules, evaluateRule r a = false) :
    mapToUIInstructions a fresh now = getDefaultInstruction now
    ∧ (getDefaultInstruction now).components.map (fun c => c.type) = ["HelpPanel"]
    ∧ (getDefaultInstruction now).layout = "centered"
    ∧ (getDefaultInstruction now).animation
        = { enter := some "fadeIn", exit := some "fadeOut"
            duration := some (mkRat 3 10), stagger := none }
    ∧ (mapToUIInstructions a fresh now).components ≠ [] := by
  have hf : mappingRules.filter (fun r => evaluateRule r a) = [] :=
    List.filter_eq_nil_iff.mpr (fun r hr => by simp [h r hr])
  have hm : mapToUIInstructions a fresh now = getDefaultInstruction now := by
    simp [mapToUIInstructions, hf]
  refine ⟨hm, rfl, rfl, rfl, ?_⟩
  rw [hm]
  exact List.cons_ne_nil _ _

/-- Witness for C5 at a concrete non-matching analysis. -/
theorem c5_witness :
    mapToUIInstructions scenNoMatch freshR 7 = getDefaultInstruction 7
    ∧ (mapToUIInstructions scenNoMatch freshR 7).components ≠ [] :=
  ⟨(c5_theorem scenNoMatch freshR 7 (by decide)).1,
   (c5_theorem scenNoMatch freshR 7 (by decide)).2.2.2.2⟩

/-! ## C9: single subscriber slot -/

/-- C9: onUpdate overwrites the single callback slot, so after subscribing f
then g only g is recorded; a processed instruction delivers the fresh
snapshot to g alone, and to nothing when no subscriber was ever set. -/
theorem c9_theorem {σ : Type} (e : Engine σ) (f g : σ) (reg : String → Bool)
    (now : ℕ) (i : UIInstructionE) :
    ((e.onUpdate f).onUpdate g).updateCallback = some g
    ∧ (Engine.processInstruction reg now ((e.onUpdate f).onUpdate g) i).2
        = [(g, (Engine.processInstruction reg now
            ((e.onUpdate f).onUpdate g) i).1.getState now)]
    ∧ (e.updateCallback = none → (Engine.processInstruction reg now e i).2 = []) := by
  refine ⟨rfl, rfl, fun h => ?_⟩
  simp [Engine.processInstruction, h]

/-- Witness for C9 at a concrete engine. -/
theorem c9_witness :
    ((engFix.onUpdate 1).onUpdate 2).updateCallback = some 2
    ∧ (Engine.processInstruction regW 0 engFix addInstrW).2 = [] :=
  ⟨(c9_theorem engFix 1 2 regW 0 addInstrW).1,
   (c9_theorem engFix 1 2 regW 0 addInstrW).2.2 rfl⟩

/-! ## C10: update frame conditions -/

/-- C10: applying one Update record to a present id shallow-merges its props,
merges its position fields when the update carries a position, and changes
nothing else: id, type, status, mountedAt and animationDelay survive in the
updated component, every other id maps to its old state, and the key set is
unchanged. -/
theorem c10_theorem (m : EngineMap) (u : ComponentUpdate) (c : ComponentState)
    (h : listGet m u.id = some c) :
    listGet (updateComponentsFinal m [u]) u.id = some
      { c with
        props := jsSpread c.props (u.props.getD [])
        position := match u.position with
          | some pu => mergePosition c.position pu
          | none => c.position }
    ∧ (∀ id2, id2 ≠ u.id →
        listGet (updateComponentsFinal m [u]) id2 = listGet m id2)
    ∧ (updateComponentsFinal m [u]).map Prod.fst = m.map Prod.fst := by
  have hstep : updateComponentsFinal m [u] = listSet m u.id
      { c with
        props := jsSpread c.props (u.props.getD [])
        position := match u.position with
          | some pu => mergePosition c.position pu
          | none => c.position } := by
    simp [updateComponentsFinal, updateStep, h]
  refine ⟨?_, ?_, ?_⟩
  · rw [hstep]; exact listGet_set_self _ _ _
  · intro id2 hn
    rw [hstep]; exact listGet_set_ne _ _ _ _ hn
  · rw [hstep]
    exact keys_listSet_mem _ _ _ (by rw [h]; exact Option.noConfusion)

/-- Witness for C10 at a concrete map and update. -/
theorem c10_witness :
    listGet (updateComponentsFinal mapFix [updFix]) updFix.id = some
      { csFP with
        props := jsSpread csFP.props (updFix.props.getD [])
        position := match updFix.position with
          | some pu => mergePosition csFP.position pu
          | none => csFP.position }
    ∧ listGet (updateComponentsFinal mapFix [updFix]) "p1" = listGet mapFix "p1" :=
  ⟨(c10_theorem mapFix updFix csFP rfl).1,
   (c10_theorem mapFix updFix csFP rfl).2.1 "p1" (by decide)⟩

/-! ## C8: removing a missing id is a no-op -/

theorem listGet_unmountStep_none (m : EngineMap) (j id : String)
    (h : listGet m id = none) : listGet (unmountStep m j) id = none := by
  cases hj : listGet m j with
  | none => simpa [unmountStep, hj] using h
  | some c =>
    have hne : id ≠ j := fun he => by subst he; simp [h] at hj
    simp only [unmountStep, hj]
    rw [listGet_set_ne _ _ _ _ hne]
    exact h

theorem listGet_removeStepNoAnim_none (m : EngineMap) (j id : String)
    (h : listGet m id = none) : listGet (removeStepNoAnim m j) id = none := by
  cases hj : listGet m j with
  | none => simpa [removeStepNoAnim, hj] using h
  | some c =>
    have hne : id ≠ j := fun he => by subst he; simp [h] at hj
    simp only [removeStepNoAnim, hj]
    rw [listGet_del_ne _ _ _ hne, listGet_set_ne _ _ _ _ hne]
    exact h

theorem foldl_unmount_skip (ids : List String) : ∀ (m : EngineMap) (id : String),
    listGet m id = none →
    (ids.filter (fun j => !(j == id))).foldl unmountStep m
      = ids.foldl unmountStep m := by
  induction ids with
  | nil => intro m id _; rfl
  | cons j rest ih =>
    intro m id h
    by_cases hj : j = id
    · subst hj
      have hstep : unmountStep m j = m := by simp [unmountStep, h]
      simp only [List.filter_cons, beq_self_eq_true, Bool.not_true, if_neg]
      simpa [List.foldl_cons, hstep] using ih m j h
    · have hb : (j == id) = false := beq_eq_false_iff_ne.mpr hj
      simp only [List.filter_cons, hb, Bool.not_false, if_pos, List.foldl_cons]
      exact ih (unmountStep m j) id (listGet_unmountStep_none m j id h)

theorem removeScheduled_skip (ids : List String) (m : EngineMap) (id : String)
    (h : listGet m id = none) :
    removeScheduled m (ids.filter (fun j => !(j == id)))
      = removeScheduled m ids := by
  induction ids with
  | nil => rfl
  | cons j rest ih
  =>
    by_cases hj : j = id
    · subst hj
      simp [removeScheduled, List.filter_cons, h] at ih ⊢
      exact ih
    · have hb : (j == id) = false := beq_eq_false_iff_ne.mpr hj
      simp only [removeScheduled, List.filter_cons, hb, Bool.not_false] at ih ⊢
      cases hjm : (listGet m j).isSome <;> simp [hjm, ih]

theorem foldl_removeNoAnim_skip (ids : List String) :
    ∀ (m : EngineMap) (id : String), listGet m id = none →
    (ids.filter (fun j => !(j == id))).foldl removeStepNoAnim m
      = ids.foldl removeStepNoAnim m := by
  induction ids with
  | nil => intro m id _; rfl
  | cons j rest ih =>
    intro m id h
    by_cases hj : j = id
    · subst hj
      have hstep : removeStepNoAnim m j = m := by simp [removeStepNoAnim, h]
      simp only [List.filter_cons, beq_self_eq_true, Bool.not_true, if_neg]
      simpa [List.foldl_cons, hstep] using ih m j h
    · have hb : (j == id) = false := beq_eq_false_iff_ne.mpr hj
      simp only [List.filter_cons, hb, Bool.not_false, if_pos, List.foldl_cons]
      exact ih (removeStepNoAnim m j) id (listGet_removeStepNoAnim_none m j id h)

/-- C8: a Remove instruction naming an id absent from the active set treats
that id as a silent no-op: the result equals the result of the instruction
with every occurrence of that id dropped, and removing only that id leaves
the map unchanged — with or without an animation config. -/
theorem c8_theorem (m : EngineMap) (ids : List String)
    (anim : Option AnimationObj) (id : String) (h : listGet m id = none) :
    removeComponentsFinal m ids anim
      = removeComponentsFinal m (ids.filter (fun j => !(j == id))) anim
    ∧ removeComponentsFinal m [id] anim = m := by
  constructor
  · cases anim with
    | some a =>
      simp only [removeComponentsFinal]
      rw [foldl_unmount_skip ids m id h, removeScheduled_skip ids m id h]
    | none =>
      simp only [removeComponentsFinal]
      rw [foldl_removeNoAnim_skip ids m id h]
  · cases anim with
    | some a =>
      simp [removeComponentsFinal, removeScheduled, unmountStep, h]
    | none =>
      simp [removeComponentsFinal, removeStepNoAnim, h]

/-- Witness for C8: removing the unknown id "ghost" from the concrete map
changes nothing. -/
theorem c8_witness :
    removeComponentsFinal mapFix ["ghost"]
        (some { exit := some "fadeOut", duration := some (mkRat 3 10) }) = mapFix :=
  (c8_theorem mapFix ["ghost"]
    (some { exit := some "fadeOut", duration := some (mkRat 3 10) })
    "ghost" rfl).2

/-! ## C4: merged component count and staggered delays -/

theorem mkRat_mul_staggerUnit (n : ℕ) :
    (mkRat n 10 : ℚ) = (n : ℚ) * staggerUnit := by
  rw [staggerUnit, Rat.mkRat_eq_divInt, Rat.mkRat_eq_divInt]
  push_cast [Rat.divInt_eq_div]
  ring

theorem foldl_push_length (fresh : ℕ → String) (a : IntentAnalysis)
    (defs : List ComponentDefinition) : ∀ acc : UIInstructionM,
    ((defs.foldl (pushDefinition fresh a) acc).components).length
      = acc.components.length + defs.length := by
  induction defs with
  | nil => intro acc; rfl
  | cons d rest ih =>
    intro acc
    rw [List.foldl_cons, ih (pushDefinition fresh a acc d)]
    have : (pushDefinition fresh a acc d).components.length
        = acc.components.length + 1 := by
      simp [pushDefinition]
    rw [this]
    simp only [List.length_cons]
    omega

theorem delaysFrom_append (l : List ComponentInstanceM) :
    ∀ (k : ℕ) (c : ComponentInstanceM), delaysFrom k l →
    c.animationDelay = some (mkRat (k + l.length) 10) →
    delaysFrom k (l ++ [c]) := by
  induction l with
  | nil => intro k c _ hc; exact ⟨by simpa using hc, trivial⟩
  | cons x rest ih =>
    intro k c h hc
    refine ⟨h.1, ih (k + 1) c h.2 ?_⟩
    have hz : ((k : ℤ) + ((x :: rest).length : ℤ))
        = ((k + 1 : ℕ) : ℤ) + (rest.length : ℤ) := by
      push_cast [List.length_cons]
      ring
    rw [hc, hz]

theorem foldl_push_delays (fresh : ℕ → String) (a : IntentAnalysis)
    (defs : List ComponentDefinition) : ∀ acc : UIInstructionM,
    delaysFrom 0 acc.components →
    delaysFrom 0 ((defs.foldl (pushDefinition fresh a) acc).components) := by
  induction defs with
  | nil => intro acc h; exact h
  | cons d rest ih =>
    intro acc h
    rw [List.foldl_cons]
    refine ih _ ?_
    show delaysFrom 0 (acc.components ++ [_])
    exact delaysFrom_append _ 0 _ h (by simp)

theorem applyRule_components_length (fresh : ℕ → String) (a : IntentAnalysis)
    (acc : UIInstructionM) (r : MappingRule) :
    ((applyRule fresh a acc r).components).length
      = acc.components.length + addDefsCount r := by
  obtain ⟨rid, rcond, rinstr⟩ := r
  obtain ⟨ract, rcomps, rlay, ranim, rmods⟩ := rinstr
  by_cases hm : (ract == "modify") = true
  · simp only [applyRule, addDefsCount, hm, if_pos]
    cases rmods with
    | none => simp
    | some mods =>
      obtain ⟨manim, mprops⟩ := mods
      cases manim <;> cases mprops <;> simp
  · simp only [applyRule, addDefsCount, hm, Bool.false_eq_true, if_neg,
      not_false_iff]
    cases rcomps with
    | none => cases rlay <;> cases ranim <;> simp
    | some defs =>
      cases rlay <;> cases ranim <;>
        simp [foldl_push_length]

theorem applyRule_delays (fresh : ℕ → String) (a : IntentAnalysis)
    (acc : UIInstructionM) (r : MappingRule)
    (h : delaysFrom 0 acc.components) :
    delaysFrom 0 ((applyRule fresh a acc r).components) := by
  obtain ⟨rid, rcond, rinstr⟩ := r
  obtain ⟨ract, rcomps, rlay, ranim, rmods⟩ := rinstr
  by_cases hm : (ract == "modify") = true
  · simp only [applyRule, hm, if_pos]
    cases rmods with
    | none => exact h
    | some mods =>
      obtain ⟨manim, mprops⟩ := mods
      cases manim <;> cases mprops <;> exact h
  · simp only [applyRule, hm, Bool.false_eq_true, if_neg, not_false_iff]
    cases rcomps with
    | none => cases rlay <;> cases ranim <;> exact h
    | some defs =>
      cases rlay <;> cases ranim <;>
        exact foldl_push_delays fresh a defs acc h

theorem foldl_applyRule_length (fresh : ℕ → String) (a : IntentAnalysis)
    (rules : List MappingRule) : ∀ acc : UIInstructionM,
    ((rules.foldl (applyRule fresh a) acc).components).length
      = acc.components.length + (rules.map addDefsCount).sum := by
  induction rules with
  | nil => intro acc; simp
  | cons r rest ih =>
    intro acc
    rw [List.foldl_cons, ih, applyRule_components_length]
    simp
    omega

theorem foldl_applyRule_delays (fresh : ℕ → String) (a : IntentAnalysis)
    (rules : List MappingRule) : ∀ acc : UIInstructionM,
    delaysFrom 0 acc.components →
    delaysFrom 0 ((rules.foldl (applyRule fresh a) acc).components) := by
  induction rules with
  | nil => intro acc h; exact h
  | cons r rest ih =>
    intro acc h
    exact ih _ (applyRule_delays fresh a acc r h)

theorem delaysFrom_get (l : List ComponentInstanceM) : ∀ (k : ℕ),
    delaysFrom k l → ∀ i (hi : i < l.length),
    (l.get ⟨i, hi⟩).animationDelay = some (mkRat (k + i) 10) := by
  induction l with
  | nil => intro k _ i hi; simp at hi
  | cons x rest ih =>
    intro k h i hi
    cases i with
    | zero => simpa using h.1
    | succ j =>
      have hj : j < rest.length := by simpa using Nat.lt_of_succ_lt_succ hi
      have hstep := ih (k + 1) h.2 j hj
      have hz : ((k : ℤ) + ((j + 1 : ℕ) : ℤ))
          = (((k + 1 : ℕ)) : ℤ) + (j : ℤ) := by
        push_cast
        ring
      rw [List.get_cons_succ, hz]
      exact hstep

theorem sum_addDefsCount (rules : List MappingRule)
    (hact : ∀ r ∈ rules, r.instruction.action = "add"
      ∨ r.instruction.action = "modify") :
    (rules.map addDefsCount).sum
      = ((rules.filter (fun r => r.instruction.action == "add")).map
          (fun r => (r.instruction.components.getD []).length)).sum := by
  induction rules with
  | nil => rfl
  | cons r rest ih =>
    have hr := hact r (List.mem_cons_self _ _)
    have hrest := fun x hx => hact x (List.mem_cons_of_mem _ hx)
    cases hr with
    | inl hadd =>
      have hb : (r.instruction.action == "modify") = false := by rw [hadd]; rfl
      have hb2 : (r.instruction.action == "add") = true := by rw [hadd]; rfl
      simp [addDefsCount, hb, hb2, ih hrest]
    | inr hmod =>
      have hb : (r.instruction.action == "modify") = true := by rw [hmod]; rfl
      have hb2 : (r.instruction.action == "add") = false := by rw [hmod]; rfl
      simp [addDefsCount, hb, hb2, ih hrest]

/-- C4: merging a matched-rule list holding two or more Add rules (the rules
of this mapper are Add or Modify rules) yields exactly the sum of the Add
rules' definition counts as its component count, and the animation delays
along the merged list are 0, 0.1, 0.2, ... — each component one staggerUnit
above its predecessor. -/
theorem c4_theorem (rules : List MappingRule) (a : IntentAnalysis)
    (fresh : ℕ → String)
    (hact : ∀ r ∈ rules, r.instruction.action = "add"
      ∨ r.instruction.action = "modify")
    (h2 : 2 ≤ (rules.filter (fun r => r.instruction.action == "add")).length) :
    (mergeInstructions rules a fresh).components.length
      = ((rules.filter (fun r => r.instruction.action == "add")).map
          (fun r => (r.instruction.components.getD []).length)).sum
    ∧ delaysFrom 0 (mergeInstructions rules a fresh).components
    ∧ ∀ i (hi : i < (mergeInstructions rules a fresh).components.length),
        ((mergeInstructions rules a fresh).components.get ⟨i, hi⟩).animationDelay
          = some ((i : ℚ) * staggerUnit) := by
  have hd : delaysFrom 0 (mergeInstructions rules a fresh).components :=
    foldl_applyRule_delays fresh a rules baseInstructionM trivial
  refine ⟨?_, hd, ?_⟩
  · rw [mergeInstructions, foldl_applyRule_length, sum_addDefsCount rules hact]
    simp [baseInstructionM]
  · intro i hi
    rw [← mkRat_mul_staggerUnit]
    simpa using delaysFrom_get _ 0 hd i hi

/-- Witness for C4 at the concrete pair of Add rules the greeting and browse
rules form. -/
theorem c4_witness :
    (mergeInstructions [greetingRule, browseRule] scenNoMatch freshR).components.length
      = (([greetingRule, browseRule].filter
          (fun r => r.instruction.action == "add")).map
          (fun r => (r.instruction.components.getD []).length)).sum
    ∧ delaysFrom 0 (mergeInstructions [greetingRule, browseRule]
        scenNoMatch freshR).components :=
  ⟨(c4_theorem [greetingRule, browseRule] scenNoMatch freshR
      (by decide) (by decide)).1,
   (c4_theorem [greetingRule, browseRule] scenNoMatch freshR
      (by decide) (by decide)).2.1⟩

/-! ## C6: two-column layout assignment -/

theorem listGet_append_left {α : Type} (l1 l2 : List (String × α)) (k : String)
    (v : α) (h : listGet l1 k = some v) : listGet (l1 ++ l2) k = some v := by
  induction l1 with
  | nil => simp [listGet] at h
  | cons kv rest ih =>
    by_cases hk : kv.1 = k
    · simpa [listGet, hk] using (by simpa [listGet, hk] using h : kv.2 = v)
    · simp only [listGet, if_neg hk] at h
      simpa [listGet, hk] using ih h

theorem listGet_append_right {α : Type} (l1 l2 : List (String × α)) (k : String)
    (h : listGet l1 k = none) : listGet (l1 ++ l2) k = listGet l2 k := by
  induction l1 with
  | nil => rfl
  | cons kv rest ih =>
    by_cases hk : kv.1 = k
    · simp [listGet, hk] at h
    · simp only [listGet, if_neg hk] at h
      simpa [listGet, hk] using ih h

theorem listSet_append_of_none {α : Type} (l : List (String × α)) (k : String)
    (v : α) (h : listGet l k = none) : listSet l k v = l ++ [(k, v)] := by
  induction l with
  | nil => rfl
  | cons kv rest ih =>
    by_cases hk : kv.1 = k
    · simp [listGet, hk] at h
    · simp only [listGet, if_neg hk] at h
      simp [listSet, if_neg hk, ih h]

theorem foldl_listSet_append {α : Type} (entries : List (String × α)) :
    ∀ acc : List (String × α),
    (∀ kv ∈ entries, listGet acc kv.1 = none) → NodupKeys entries →
    entries.foldl (fun m kv => listSet m kv.1 kv.2) acc = acc ++ entries := by
  induction entries with
  | nil => intro acc _ _; simp
  | cons kv rest ih =>
    intro acc hfresh hn
    have hv : listGet acc kv.1 = none := hfresh kv (List.mem_cons_self _ _)
    rw [List.foldl_cons, listSet_append_of_none acc kv.1 kv.2 hv]
    simp only [NodupKeys, List.map_cons, List.nodup_cons] at hn
    rw [ih (acc ++ [kv]) ?_ hn.2]
    · simp
    · intro kv2 h2
      have hne : kv2.1 ≠ kv.1 := by
        intro he
        exact hn.1 (he ▸ List.mem_map.mpr ⟨kv2, h2, rfl⟩)
      rw [listGet_append_right _ _ _ (hfresh kv2 (List.mem_cons_of_mem _ h2))]
      simp [listGet, if_neg (Ne.symm hne)]

theorem posEntriesToMap_eq (entries : List (String × Position))
    (h : NodupKeys entries) : posEntriesToMap entries = entries := by
  have := foldl_listSet_append entries [] (fun kv _ => rfl) h
  simpa [posEntriesToMap] using this

theorem keys_enum_entries (f : ℕ × ComponentState → Position)
    (l : List ComponentState) (n : ℕ) :
    ((List.enumFrom n l).map (fun p => (p.2.id, f p))).map Prod.fst
      = l.map (fun c => c.id) := by
  induction l generalizing n with
  | nil => rfl
  | cons x rest ih => simp [List.enumFrom, ih]

theorem lookup_enum_entries (f : ℕ × ComponentState → Position)
    (l : List ComponentState) :
    ∀ (n : ℕ), (l.map (fun c => c.id)).Nodup →
    ∀ (j : ℕ) (hj : j < l.length),
    listGet ((List.enumFrom n l).map (fun p => (p.2.id, f p)))
      ((l.get ⟨j, hj⟩).id) = some (f (n + j, l.get ⟨j, hj⟩)) := by
  induction l with
  | nil => intro n _ j hj; simp at hj
  | cons x rest ih =>
    intro n hn j hj
    simp only [List.map_cons, List.nodup_cons] at hn
    cases j with
    | zero => simp [List.enumFrom, listGet]
    | succ j2 =>
      have hj2 : j2 < rest.length := by simpa using Nat.lt_of_succ_lt_succ hj
      have hne : x.id ≠ (rest.get ⟨j2, hj2⟩).id := by
        intro he
        exact hn.1 (he ▸ List.mem_map.mpr ⟨_, List.get_mem _ _ _, rfl⟩)
      have hstep := ih (n + 1) hn.2 j2 hj2
      have harith : n + 1 + j2 = n + (j2 + 1) := by omega
      rw [harith] at hstep
      rw [List.get_cons_succ]
      simp only [List.enumFrom, List.map_cons, listGet,
        if_neg (fun h => hne h)]
      exact hstep

theorem calcPositions_twoColumn (comps : List ComponentState) :
    calculatePositions comps "two-column"
      = posEntriesToMap
        (((comps.filter (fun c => isSidebarType c.type)).enum.map (fun p =>
          (p.2.id, ({ area := "sidebar", order := p.1
                      width := some "300px" } : Position))))
        ++ ((comps.filter (fun c => !isSidebarType c.type)).enum.map (fun p =>
          (p.2.id, ({ area := "main", order := p.1
                      width := some "100%" } : Position))))) := rfl

theorem twoColumn_entries_eq (comps : List ComponentState)
    (hn : (comps.map (fun c => c.id)).Nodup) :
    calculatePositions comps "two-column"
      = ((comps.filter (fun c => isSidebarType c.type)).enum.map (fun p =>
          (p.2.id, ({ area := "sidebar", order := p.1
                      width := some "300px" } : Position))))
        ++ ((comps.filter (fun c => !isSidebarType c.type)).enum.map (fun p =>
          (p.2.id, ({ area := "main", order := p.1
                      width := some "100%" } : Position)))) := by
  rw [calcPositions_twoColumn]
  apply posEntriesToMap_eq
  show (List.map Prod.fst _).Nodup
  rw [List.map_append]
  simp only [List.enum]
  rw [keys_enum_entries, keys_enum_entries]
  have hperm := (List.filter_append_perm (fun c => isSidebarType c.type) comps).map
    (fun c => c.id)
  rw [List.map_append] at hperm
  exact (List.Perm.nodup_iff hperm).mpr hn

/-- C6: under the two-column layout, a component whose type is in the fixed
sidebar set lands in area "sidebar" and any other component in area "main";
within each area the order is the component's index in the filtered sublist,
so relative input order is preserved area-wise. -/
theorem c6_theorem (comps : List ComponentState)
    (hn : (comps.map (fun c => c.id)).Nodup) :
    (∀ (j : ℕ) (hj : j < (comps.filter (fun c => isSidebarType c.type)).length),
      listGet (calculatePositions comps "two-column")
        (((comps.filter (fun c => isSidebarType c.type)).get ⟨j, hj⟩).id)
        = some { area := "sidebar", order := j, width := some "300px" })
    ∧ (∀ (j : ℕ) (hj : j < (comps.filter (fun c => !isSidebarType c.type)).length),
      listGet (calculatePositions comps "two-column")
        (((comps.filter (fun c => !isSidebarType c.type)).get ⟨j, hj⟩).id)
        = some { area := "main", order := j, width := some "100%" })
    ∧ (∀ c ∈ comps, ∃ p, listGet (calculatePositions comps "two-column") c.id
        = some p
        ∧ p.area = (if isSidebarType c.type then "sidebar" else "main")) := by
  have hperm := (List.filter_append_perm (fun c => isSidebarType c.type) comps).map
    (fun c => c.id)
  rw [List.map_append] at hperm
  have hboth : ((comps.filter (fun c => isSidebarType c.type)).map (fun c => c.id)
      ++ (comps.filter (fun c => !isSidebarType c.type)).map (fun c => c.id)).Nodup :=
    (List.Perm.nodup_iff hperm).mpr hn
  rw [List.nodup_append] at hboth
  obtain ⟨hnsb, hnmn, hdisj⟩ := hboth
  rw [twoColumn_entries_eq comps hn]
  have hsb : ∀ (j : ℕ) (hj : j < (comps.filter (fun c => isSidebarType c.type)).length),
      listGet (((comps.filter (fun c => isSidebarType c.type)).enum.map (fun p =>
          (p.2.id, ({ area := "sidebar", order := p.1
                      width := some "300px" } : Position))))
        ++ ((comps.filter (fun c => !isSidebarType c.type)).enum.map (fun p =>
          (p.2.id, ({ area := "main", order := p.1
                      width := some "100%" } : Position)))))
        (((comps.filter (fun c => isSidebarType c.type)).get ⟨j, hj⟩).id)
        = some { area := "sidebar", order := j, width := some "300px" } := by
    intro j hj
    apply listGet_append_left
    have := lookup_enum_entries
      (fun p => ({ area := "sidebar", order := p.1
                   width := some "300px" } : Position))
      (comps.filter (fun c => isSidebarType c.type)) 0 hnsb j hj
    simpa [List.enum] using this
  have hmn : ∀ (j : ℕ) (hj : j < (comps.filter (fun c => !isSidebarType c.type)).length),
      listGet (((comps.filter (fun c => isSidebarType c.type)).enum.map (fun p =>
          (p.2.id, ({ area := "sidebar", order := p.1
                      width := some "300px" } : Position))))
        ++ ((comps.filter (fun c => !isSidebarType c.type)).enum.map (fun p =>
          (p.2.id, ({ area := "main", order := p.1
                      width := some "100%" } : Position)))))
        (((comps.filter (fun c => !isSidebarType c.type)).get ⟨j, hj⟩).id)
        = some { area := "main", order := j, width := some "100%" } := by
    intro j hj
    rw [listGet_append_right]
    · have := lookup_enum_entries
        (fun p => ({ area := "main", order := p.1
                     width := some "100%" } : Position))
        (comps.filter (fun c => !isSidebarType c.type)) 0 hnmn j hj
      simpa [List.enum] using this
    · apply listGet_eq_none_of_not_mem_keys
      have hkeys := keys_enum_entries
        (fun p => ({ area := "sidebar", order := p.1
                     width := some "300px" } : Position))
        (comps.filter (fun c => isSidebarType c.type)) 0
      simp only [List.enum]
      rw [hkeys]
      intro hmem
      exact hdisj hmem (List.mem_map.mpr ⟨_, List.get_mem _ _ _, rfl⟩)
  refine ⟨hsb, hmn, ?_⟩
  intro c hc
  by_cases hs : isSidebarType c.type = true
  · have hcm : c ∈ comps.filter (fun c => isSidebarType c.type) :=
      List.mem_filter.mpr ⟨hc, hs⟩
    obtain ⟨⟨j, hj⟩, hget⟩ := List.mem_iff_get.mp hcm
    exact ⟨_, by rw [← hget]; exact hsb j hj, by simp [hs]⟩
  · have hs2 : (!isSidebarType c.type) = true := by simp [hs]
    have hcm : c ∈ comps.filter (fun c => !isSidebarType c.type) :=
      List.mem_filter.mpr ⟨hc, hs2⟩
    obtain ⟨⟨j, hj⟩, hget⟩ := List.mem_iff_get.mp hcm
    exact ⟨_, by rw [← hget]; exact hmn j hj, by simp [hs]⟩

/-- Witness for C6 at the concrete two-component map fixture. -/
theorem c6_witness :
    listGet (calculatePositions [csFP, csPG] "two-column") "f1"
      = some { area := "sidebar", order := 0, width := some "300px" }
    ∧ listGet (calculatePositions [csFP, csPG] "two-column") "p1"
      = some { area := "main", order := 0, width := some "100%" } :=
  ⟨(c6_theorem [csFP, csPG] (by decide)).1 0 (by decide),
   (c6_theorem [csFP, csPG] (by decide)).2.1 0 (by decide)⟩

/-! ## C7: reorganize idempotence -/

theorem enum_entries_congr (f : ℕ → Position) (cs1 : List ComponentState) :
    ∀ (cs2 : List ComponentState) (n : ℕ),
    cs1.map (fun c => c.id) = cs2.map (fun c => c.id) →
    (List.enumFrom n cs1).map (fun p => (p.2.id, f p.1))
      = (List.enumFrom n cs2).map (fun p => (p.2.id, f p.1)) := by
  induction cs1 with
  | nil =>
    intro cs2 n h
    cases cs2 with
    | nil => rfl
    | cons y ys => simp at h
  | cons x rest ih =>
    intro cs2 n h
    cases cs2 with
    | nil => simp at h
    | cons y ys =>
      simp only [List.map_cons, List.cons.injEq] at h
      simp only [List.enumFrom, List.map_cons, h.1]
      rw [ih ys (n + 1) h.2]

theorem filter_map_id_congr (p : String → Bool) (cs1 : List ComponentState) :
    ∀ cs2 : List ComponentState,
    cs1.map (fun c => (c.id, c.type)) = cs2.map (fun c => (c.id, c.type)) →
    (cs1.filter (fun c => p c.type)).map (fun c => c.id)
      = (cs2.filter (fun c => p c.type)).map (fun c => c.id) := by
  induction cs1 with
  | nil =>
    intro cs2 h
    cases cs2 with
    | nil => rfl
    | cons y ys => simp at h
  | cons x rest ih =>
    intro cs2 h
    cases cs2 with
    | nil => simp at h
    | cons y ys =>
      simp only [List.map_cons, List.cons.injEq, Prod.mk.injEq] at h
      obtain ⟨⟨hid, hty⟩, hrest⟩ := h
      simp only [List.filter_cons, hty]
      cases hp : p y.type with
      | true => simp [hid, ih ys hrest]
      | false => simpa using ih ys hrest

theorem map_id_of_map_idType (cs1 cs2 : List ComponentState)
    (h : cs1.map (fun c => (c.id, c.type)) = cs2.map (fun c => (c.id, c.type))) :
    cs1.map (fun c => c.id) = cs2.map (fun c => c.id) := by
  have := congrArg (List.map Prod.fst) h
  simpa [List.map_map, Function.comp] using this

theorem calcPositions_congr (cs1 cs2 : List ComponentState)
    (h : cs1.map (fun c => (c.id, c.type)) = cs2.map (fun c => (c.id, c.type)))
    (k : String) : calculatePositions cs1 k = calculatePositions cs2 k := by
  have hid := map_id_of_map_idType cs1 cs2 h
  unfold calculatePositions
  split
  · simp only [List.enum]
    rw [enum_entries_congr (fun i =>
      { area := "center", order := i, width := some "100%"
        maxWidth := some "600px" }) cs1 cs2 0 hid]
  · simp only [List.enum]
    rw [enum_entries_congr (fun i =>
          { area := "sidebar", order := i, width := some "300px" })
          (cs1.filter (fun c => isSidebarType c.type))
          (cs2.filter (fun c => isSidebarType c.type)) 0
          (filter_map_id_congr (fun t => isSidebarType t) cs1 cs2 h),
        enum_entries_congr (fun i =>
          { area := "main", order := i, width := some "100%" })
          (cs1.filter (fun c => !isSidebarType c.type))
          (cs2.filter (fun c => !isSidebarType c.type)) 0
          (filter_map_id_congr (fun t => !isSidebarType t) cs1 cs2 h)]
  · simp only [List.enum]
    rw [enum_entries_congr (fun i =>
      { area := "grid", order := i, width := some "auto"
        gridColumn := some (i % 3 + 1), gridRow := some (i / 3 + 1) })
      cs1 cs2 0 hid]
  · simp only [List.enum]
    rw [enum_entries_congr (fun i =>
      { area := "main", order := i, width := some "100%" }) cs1 cs2 0 hid]

theorem listSet_values_idType (m : EngineMap) (k : String)
    (c c2 : ComponentState) (hg : listGet m k = some c) (hid : c2.id = c.id)
    (hty : c2.type = c.type) :
    ((listSet m k c2).map Prod.snd).map (fun x => (x.id, x.type))
      = (m.map Prod.snd).map (fun x => (x.id, x.type)) := by
  induction m with
  | nil => simp [listGet] at hg
  | cons kv rest ih =>
    by_cases hk : kv.1 = k
    · have hv : kv.2 = c := by simpa [listGet, hk] using hg
      simp [listSet, hk, hid, hty, hv]
    · simp only [listGet, if_neg hk] at hg
      simp [listSet, if_neg hk, ih hg]

theorem posStep_idType (m : EngineMap) (kv : String × Position) :
    ((posStep m kv).map Prod.snd).map (fun x => (x.id, x.type))
      = (m.map Prod.snd).map (fun x => (x.id, x.type)) := by
  cases hg : listGet m kv.1 with
  | none => simp [posStep, hg]
  | some c =>
    simp only [posStep, hg]
    exact listSet_values_idType m kv.1 c _ hg rfl rfl

theorem foldl_posStep_idType (pm : List (String × Position)) :
    ∀ m : EngineMap,
    ((pm.foldl posStep m).map Prod.snd).map (fun x => (x.id, x.type))
      = (m.map Prod.snd).map (fun x => (x.id, x.type)) := by
  induction pm with
  | nil => intro m; rfl
  | cons kv rest ih =>
    intro m
    rw [List.foldl_cons, ih (posStep m kv), posStep_idType]

theorem listSet_self_eq {α : Type} (m : List (String × α)) (k : String) (v : α)
    (h : listGet m k = some v) : listSet m k v = m := by
  induction m with
  | nil => simp [listGet] at h
  | cons kv rest ih =>
    by_cases hk : kv.1 = k
    · have hv : kv.2 = v := by simpa [listGet, hk] using h
      subst hk
      simp [listSet, hv.symm]
    · simp only [listGet, if_neg hk] at h
      simp [listSet, if_neg hk, ih h]

theorem posStep_get_ne (m : EngineMap) (kv : String × Position) (k : String)
    (h : k ≠ kv.1) : listGet (posStep m kv) k = listGet m k := by
  cases hg : listGet m kv.1 with
  | none => simp [posStep, hg]
  | some c =>
    simp only [posStep, hg]
    exact listGet_set_ne _ _ _ _ h

theorem foldl_posStep_get_nmem (pm : List (String × Position)) :
    ∀ (m : EngineMap) (k : String), k ∉ pm.map Prod.fst →
    listGet (pm.foldl posStep m) k = listGet m k := by
  induction pm with
  | nil => intro m k _; rfl
  | cons kv rest ih =>
    intro m k h
    simp only [List.map_cons, List.mem_cons, not_or] at h
    rw [List.foldl_cons, ih (posStep m kv) k h.2, posStep_get_ne m kv k h.1]

theorem foldl_posStep_get_mem (pm : List (String × Position)) :
    ∀ (m : EngineMap) (k : String) (v : Position), NodupKeys pm →
    (k, v) ∈ pm →
    listGet (pm.foldl posStep m) k
      = (listGet m k).map (fun c => { c with position := v }) := by
  induction pm with
  | nil => intro m k v _ hm; simp at hm
  | cons kv rest ih =>
    intro m k v hn hm
    simp only [NodupKeys, List.map_cons, List.nodup_cons] at hn
    rcases List.mem_cons.mp hm with h1 | h1
    · have hk : kv.1 = k := by rw [← h1]
      have hv : kv.2 = v := by rw [← h1]
      subst hk
      rw [List.foldl_cons,
        foldl_posStep_get_nmem rest (posStep m kv) kv.1 hn.1]
      cases hg : listGet m kv.1 with
      | none => simp [posStep, hg]
      | some c =>
        simp only [posStep, hg]
        rw [listGet_set_self]
        simp [hv]
    · have hne : k ≠ kv.1 := by
        intro he
        exact hn.1 (he ▸ List.mem_map.mpr ⟨(k, v), h1, rfl⟩)
      rw [List.foldl_cons, ih (posStep m kv) k v hn.2 h1,
        posStep_get_ne m kv k hne]

theorem foldl_posStep_fix (pm : List (String × Position)) :
    ∀ m : EngineMap, (∀ kv ∈ pm, posStep m kv = m) →
    pm.foldl posStep m = m := by
  induction pm with
  | nil => intro m _; rfl
  | cons kv rest ih =>
    intro m h
    rw [List.foldl_cons, h kv (List.mem_cons_self _ _)]
    exact ih m (fun kv2 h2 => h kv2 (List.mem_cons_of_mem _ h2))

theorem foldl_listSet_nodup {α : Type} (entries : List (String × α)) :
    ∀ acc : List (String × α), NodupKeys acc →
    NodupKeys (entries.foldl (fun m kv => listSet m kv.1 kv.2) acc) := by
  induction entries with
  | nil => intro acc h; exact h
  | cons kv rest ih =>
    intro acc h
    exact ih _ (nodup_listSet acc kv.1 kv.2 h)

theorem posEntriesToMap_nodup (entries : List (String × Position)) :
    NodupKeys (posEntriesToMap entries) :=
  foldl_listSet_nodup entries [] (by simp [NodupKeys])

theorem calcPositions_nodup (cs : List ComponentState) (k : String) :
    NodupKeys (calculatePositions cs k) := by
  unfold calculatePositions
  split <;> exact posEntriesToMap_nodup _

theorem reorganizeFinal_idem (m : EngineMap) (k : String) :
    reorganizeFinal (reorganizeFinal m k) k = reorganizeFinal m k := by
  have hsame : calculatePositions ((reorganizeFinal m k).map Prod.snd) k
      = calculatePositions (m.map Prod.snd) k :=
    calcPositions_congr _ _ (foldl_posStep_idType _ m) k
  show (calculatePositions ((reorganizeFinal m k).map Prod.snd) k).foldl
      posStep (reorganizeFinal m k) = reorganizeFinal m k
  rw [hsame]
  apply foldl_posStep_fix
  intro kv hkv
  have hg := foldl_posStep_get_mem (calculatePositions (m.map Prod.snd) k) m
    kv.1 kv.2 (calcPositions_nodup _ _) (by simpa using hkv)
  cases hgm : listGet m kv.1 with
  | none =>
    have h0 : listGet (reorganizeFinal m k) kv.1 = none := by
      rw [reorganizeFinal, hg, hgm]; rfl
    simp [posStep, h0]
  | some c0 =>
    have h1 : listGet (reorganizeFinal m k) kv.1
        = some { c0 with position := kv.2 } := by
      rw [reorganizeFinal, hg, hgm]; rfl
    simp only [posStep, h1]
    exact listSet_self_eq _ _ _ h1

/-- C7: applying Reorganize twice in a row with the same layout key is
idempotent — the second application leaves the whole engine (components
with ids, types, props, statuses, positions, and the layout key) exactly as
the first left it, so the two post-apply snapshots agree on everything but
the timestamp. -/
theorem c7_theorem {σ : Type} (e : Engine σ) (k : String)
    (reg : String → Bool) (now now2 t1 t2 : ℕ) :
    (Engine.processInstruction reg now2
        (Engine.processInstruction reg now e
          { action := "reorganize", layout := some k }).1
        { action := "reorganize", layout := some k }).1
      = (Engine.processInstruction reg now e
          { action := "reorganize", layout := some k }).1
    ∧ (((Engine.processInstruction reg now2
        (Engine.processInstruction reg now e
          { action := "reorganize", layout := some k }).1
        { action := "reorganize", layout := some k }).1.getState t1).components
      = ((Engine.processInstruction reg now e
          { action := "reorganize", layout := some k }).1.getState t2).components)
    ∧ (((Engine.processInstruction reg now2
        (Engine.processInstruction reg now e
          { action := "reorganize", layout := some k }).1
        { action := "reorganize", layout := some k }).1.getState t1).layout
      = ((Engine.processInstruction reg now e
          { action := "reorganize", layout := some k }).1.getState t2).layout) := by
  have hmain : (Engine.processInstruction reg now2
      (Engine.processInstruction reg now e
        { action := "reorganize", layout := some k }).1
      { action := "reorganize", layout := some k }).1
      = (Engine.processInstruction reg now e
        { action := "reorganize", layout := some k }).1 := by
    simp [Engine.processInstruction, applyInstrMap, reorganizeFinal_idem]
  refine ⟨hmain, ?_, ?_⟩ <;> rw [hmain] <;> rfl

/-! ## C2: lifecycle state machine over instruction micro-traces -/

theorem statusEdge_refl (x : Option CStatus) : statusEdge x x := by
  cases x with
  | none => trivial
  | some s => exact Or.inl rfl

theorem lifecycleEdge_refl (m : EngineMap) : LifecycleEdge m m :=
  fun _ => statusEdge_refl _

theorem lifecycleEdge_insert (m : EngineMap) (k : String) (c : ComponentState)
    (hg : listGet m k = none) (hs : c.status = .mounting) :
    LifecycleEdge m (listSet m k c) := by
  intro id
  by_cases hid : id = k
  · subst hid
    rw [hg, listGet_set_self]
    exact hs
  · rw [listGet_set_ne _ _ _ _ hid]
    exact statusEdge_refl _

theorem lifecycleEdge_set (m : EngineMap) (k : String) (c c2 : ComponentState)
    (hg : listGet m k = some c)
    (hs : c.status = c2.status ∨ (c.status = .mounting ∧ c2.status = .mounted)
      ∨ (c.status = .mounted ∧ c2.status = .unmounting)) :
    LifecycleEdge m (listSet m k c2) := by
  intro id
  by_cases hid : id = k
  · subst hid
    rw [hg, listGet_set_self]
    exact hs
  · rw [listGet_set_ne _ _ _ _ hid]
    exact statusEdge_refl _

theorem lifecycleEdge_del (m : EngineMap) (k : String) (c : ComponentState)
    (hg : listGet m k = some c) (hs : c.status = .unmounting)
    (hn : NodupKeys m) : LifecycleEdge m (listDel m k) := by
  intro id
  by_cases hid : id = k
  · subst hid
    rw [hg, listGet_del_self _ _ hn]
    exact hs
  · rw [listGet_del_ne _ _ _ hid]
    exact statusEdge_refl _

theorem listDel_absent {α : Type} (m : List (String × α)) (k : String)
    (h : listGet m k = none) : listDel m k = m := by
  induction m with
  | nil => rfl
  | cons kv rest ih =>
    by_cases hk : kv.1 = k
    · simp [listGet, hk] at h
    · simp only [listGet, if_neg hk] at h
      simp [listDel, if_neg hk, ih h]

theorem chainOK_append (R : EngineMap → EngineMap → Prop)
    (xs : List EngineMap) : ∀ (m : EngineMap) (ys : List EngineMap),
    ChainOK R m xs → ChainOK R (xs.getLastD m) ys → ChainOK R m (xs ++ ys) := by
  induction xs with
  | nil => intro m ys _ h2; exact h2
  | cons x rest ih =>
    intro m ys h1 h2
    rw [List.getLastD_cons] at h2
    exact ⟨h1.1, ih x ys h1.2 h2⟩

theorem traceFold_last {α : Type} (f : EngineMap → α → EngineMap)
    (l : List α) : ∀ m : EngineMap,
    (traceFold f m l).getLastD m = l.foldl f m := by
  induction l with
  | nil => intro m; rfl
  | cons a rest ih =>
    intro m
    rw [traceFold, List.getLastD_cons, ih (f m a), List.foldl_cons]

theorem getLastD_append (xs ys : List EngineMap) : ∀ d : EngineMap,
    (xs ++ ys).getLastD d = ys.getLastD (xs.getLastD d) := by
  induction xs with
  | nil => intro d; rfl
  | cons x rest ih =>
    intro d
    rw [List.cons_append, List.getLastD_cons, ih x, List.getLastD_cons]

theorem addPhase1_ok (reg : String → Bool) (now : ℕ)
    (comps : List ComponentInstanceE) : ∀ m : EngineMap,
    (∀ c ∈ comps, listGet m c.id = none) →
    (comps.map (fun c => c.id)).Nodup →
    ChainOK LifecycleEdge m (traceFold (insertStep reg now) m comps)
    ∧ (∀ id c2, listGet (comps.foldl (insertStep reg now) m) id = some c2 →
        listGet m id = some c2
        ∨ (c2.status = .mounting ∧ ∃ d ∈ comps, d.id = id)) := by
  induction comps with
  | nil => intro m _ _; exact ⟨trivial, fun id c2 h => Or.inl h⟩
  | cons c rest ih =>
    intro m hfresh hnd
    simp only [List.map_cons, List.nodup_cons] at hnd
    have hcfresh : listGet m c.id = none := hfresh c (List.mem_cons_self _ _)
    have hrestfresh : ∀ d ∈ rest, listGet (insertStep reg now m c) d.id = none := by
      intro d hd
      have hne : d.id ≠ c.id := by
        intro he
        exact hnd.1 (he ▸ List.mem_map.mpr ⟨d, hd, rfl⟩)
      cases hr : reg c.type with
      | false => simpa [insertStep, hr] using hfresh d (List.mem_cons_of_mem _ hd)
      | true =>
        simp only [insertStep, hr, if_pos]
        rw [listGet_set_ne _ _ _ _ hne]
        exact hfresh d (List.mem_cons_of_mem _ hd)
    obtain ⟨ihchain, ihchar⟩ := ih (insertStep reg now m c) hrestfresh hnd.2
    constructor
    · refine ⟨?_, ihchain⟩
      cases hr : reg c.type with
      | false => simpa [insertStep, hr] using lifecycleEdge_refl m
      | true =>
        simp only [insertStep, hr, if_pos]
        exact lifecycleEdge_insert m c.id _ hcfresh rfl
    · intro id c2 hg
      rcases ihchar id c2 hg with h1 | h1
      · cases hr : reg c.type with
        | false =>
          left
          simpa [insertStep, hr] using h1
        | true =>
          simp only [insertStep, hr, if_pos] at h1
          by_cases hid : id = c.id
          · subst hid
            rw [listGet_set_self] at h1
            right
            refine ⟨?_, c, List.mem_cons_self _ _, rfl⟩
            rw [← Option.some_inj.mp h1]
          · rw [listGet_set_ne _ _ _ _ hid] at h1
            exact Or.inl h1
      · exact Or.inr ⟨h1.1, h1.2.choose, List.mem_cons_of_mem _ h1.2.choose_spec.1,
          h1.2.choose_spec.2⟩

theorem addPhase2_ok (comps : List ComponentInstanceE) : ∀ m : EngineMap,
    (∀ id c2, listGet m id = some c2 → c2.status = .mounted
      ∨ (c2.status = .mounting ∧ ∃ d ∈ comps, d.id = id)) →
    ChainOK LifecycleEdge m (traceFold mountStep m comps)
    ∧ AllMounted (comps.foldl mountStep m) := by
  induction comps with
  | nil =>
    intro m hchar
    refine ⟨trivial, fun id c2 hg => ?_⟩
    rcases hchar id c2 hg with h | h
    · exact h
    · obtain ⟨_, _, hmem, _⟩ := h
      simp at hmem
  | cons c rest ih =>
    intro m hchar
    cases hg : listGet m c.id with
    | none =>
      have hstep : mountStep m c = m := by simp [mountStep, hg]
      have hchar2 : ∀ id c2, listGet m id = some c2 → c2.status = .mounted
          ∨ (c2.status = .mounting ∧ ∃ d ∈ rest, d.id = id) := by
        intro id c2 h2
        rcases hchar id c2 h2 with h | h
        · exact Or.inl h
        · obtain ⟨hs, d, hd, hdid⟩ := h
          rcases List.mem_cons.mp hd with rfl | hd2
          · rw [hdid] at hg
            rw [hg] at h2
            cases h2
          · exact Or.inr ⟨hs, d, hd2, hdid⟩
      obtain ⟨ihchain, ihall⟩ := ih m hchar2
      refine ⟨⟨?_, ?_⟩, ?_⟩
      · rw [hstep]; exact lifecycleEdge_refl m
      · rw [hstep]; exact ihchain
      · rw [List.foldl_cons, hstep]; exact ihall
    | some st =>
      have hstep : mountStep m c = listSet m c.id { st with status := .mounted } := by
        simp [mountStep, hg]
      have hedge : LifecycleEdge m (listSet m c.id { st with status := .mounted }) := by
        apply lifecycleEdge_set m c.id st _ hg
        rcases hchar c.id st hg with h | h
        · exact Or.inl (by rw [h])
        · exact Or.inr (Or.inl ⟨h.1, rfl⟩)
      have hchar2 : ∀ id c2,
          listGet (listSet m c.id { st with status := .mounted }) id = some c2 →
          c2.status = .mounted ∨ (c2.status = .mounting ∧ ∃ d ∈ rest, d.id = id) := by
        intro id c2 h2
        by_cases hid : id = c.id
        · subst hid
          rw [listGet_set_self] at h2
          left
          rw [← Option.some_inj.mp h2]
        · rw [listGet_set_ne _ _ _ _ hid] at h2
          rcases hchar id c2 h2 with h | h
          · exact Or.inl h
          · obtain ⟨hs, d, hd, hdid⟩ := h
            rcases List.mem_cons.mp hd with rfl | hd2
            · exact absurd hdid.symm hid
            · exact Or.inr ⟨hs, d, hd2, hdid⟩
      obtain ⟨ihchain, ihall⟩ := ih _ hchar2
      refine ⟨⟨?_, ?_⟩, ?_⟩
      · rw [hstep]; exact hedge
      · rw [hstep]; exact ihchain
      · rw [List.foldl_cons, hstep]; exact ihall

/-- Every present component is mounted or unmounting (the state during a
remove batch). -/
def MountedOrUnmounting (m : EngineMap) : Prop :=
  ∀ id c, listGet m id = some c → c.status = .mounted ∨ c.status = .unmounting

theorem unmountStep_get_ne (m : EngineMap) (j id : String) (h : id ≠ j) :
    listGet (unmountStep m j) id = listGet m id := by
  cases hj : listGet m j with
  | none => simp [unmountStep, hj]
  | some c =>
    simp only [unmountStep, hj]
    exact listGet_set_ne _ _ _ _ h

theorem removePhase1_ok (ids : List String) : ∀ m : EngineMap,
    MountedOrUnmounting m →
    ChainOK LifecycleEdge m (traceFold unmountStep m ids)
    ∧ MountedOrUnmounting (ids.foldl unmountStep m) := by
  induction ids with
  | nil => intro m h; exact ⟨trivial, h⟩
  | cons j rest ih =>
    intro m hmu
    have hstep : MountedOrUnmounting (unmountStep m j) := by
      intro id c2 h2
      cases hj : listGet m j with
      | none =>
        rw [unmountStep, hj] at h2
        exact hmu id c2 h2
      | some c =>
        rw [unmountStep, hj] at h2
        by_cases hid : id = j
        · subst hid
          rw [listGet_set_self] at h2
          right
          rw [← Option.some_inj.mp h2]
        · rw [listGet_set_ne _ _ _ _ hid] at h2
          exact hmu id c2 h2
    obtain ⟨ihchain, ihmu⟩ := ih (unmountStep m j) hstep
    refine ⟨⟨?_, ihchain⟩, ihmu⟩
    cases hj : listGet m j with
    | none => simpa [unmountStep, hj] using lifecycleEdge_refl m
    | some c =>
      simp only [unmountStep, hj]
      apply lifecycleEdge_set m j c _ hj
      rcases hmu j c hj with h | h
      · exact Or.inr (Or.inr ⟨h, rfl⟩)
      · exact Or.inl (by rw [h])

theorem foldl_unmount_get_nmem (ids : List String) : ∀ (m : EngineMap)
    (id : String), id ∉ ids →
    listGet (ids.foldl unmountStep m) id = listGet m id := by
  induction ids with
  | nil => intro m id _; rfl
  | cons j rest ih =>
    intro m id h
    simp only [List.mem_cons, not_or] at h
    rw [List.foldl_cons, ih _ id h.2, unmountStep_get_ne m j id h.1]

theorem unmount_sets (ids : List String) : ∀ (m : EngineMap) (id : String),
    (listGet m id).isSome → id ∈ ids →
    ∃ c, listGet (ids.foldl unmountStep m) id = some c
      ∧ c.status = .unmounting := by
  induction ids with
  | nil => intro m id _ hmem; simp at hmem
  | cons j rest ih =>
    intro m id hp hmem
    by_cases hid : id = j
    · subst hid
      obtain ⟨c, hc⟩ := Option.isSome_iff_exists.mp hp
      have hstep : listGet (unmountStep m id) id
          = some { c with status := .unmounting } := by
        simp only [unmountStep, hc]
        exact listGet_set_self _ _ _
      by_cases hr : id ∈ rest
      · exact ih (unmountStep m id) id (by simp [hstep]) hr
      · refine ⟨{ c with status := .unmounting }, ?_, rfl⟩
        rw [List.foldl_cons, foldl_unmount_get_nmem rest _ id hr, hstep]
    · have hmem2 : id ∈ rest := by
        rcases List.mem_cons.mp hmem with h | h
        · exact absurd h hid
        · exact h
      have hp2 : (listGet (unmountStep m j) id).isSome := by
        rw [unmountStep_get_ne m j id hid]
        exact hp
      exact ih (unmountStep m j) id hp2 hmem2

theorem unmount_new (ids : List String) : ∀ (m : EngineMap) (id : String)
    (c : ComponentState),
    listGet (ids.foldl unmountStep m) id = some c → c.status = .unmounting →
    ∃ c0, listGet m id = some c0 ∧ (c0.status = .unmounting ∨ id ∈ ids) := by
  induction ids with
  | nil =>
    intro m id c hg hs
    exact ⟨c, hg, Or.inl hs⟩
  | cons j rest ih =>
    intro m id c hg hs
    obtain ⟨c0, hc0, hdisj⟩ := ih (unmountStep m j) id c hg hs
    by_cases hid : id = j
    · subst hid
      cases hj : listGet m id with
      | none =>
        rw [unmountStep, hj] at hc0
        rw [hj] at hc0
        cases hc0
      | some c1 => exact ⟨c1, rfl, Or.inr (List.mem_cons_self _ _)⟩
    · rw [unmountStep_get_ne m j id hid] at hc0
      rcases hdisj with h | h
      · exact ⟨c0, hc0, Or.inl h⟩
      · exact ⟨c0, hc0, Or.inr (List.mem_cons_of_mem _ h)⟩

theorem foldl_unmount_nodup (ids : List String) : ∀ m : EngineMap,
    NodupKeys m → NodupKeys (ids.foldl unmountStep m) := by
  induction ids with
  | nil => intro m h; exact h
  | cons j rest ih =>
    intro m h
    refine ih _ ?_
    cases hj : listGet m j with
    | none => simpa [unmountStep, hj] using h
    | some c =>
      simp only [unmountStep, hj]
      exact nodup_listSet _ _ _ h

theorem get_none_foldl_del (sch : List String) : ∀ (m : EngineMap)
    (id : String), listGet m id = none →
    listGet (sch.foldl listDel m) id = none := by
  induction sch with
  | nil => intro m id h; exact h
  | cons j rest ih =>
    intro m id h
    exact ih _ id (listGet_del_none m j id h)

theorem foldl_del_nodup (sch : List String) : ∀ m : EngineMap,
    NodupKeys m → NodupKeys (sch.foldl listDel m) := by
  induction sch with
  | nil => intro m h; exact h
  | cons j rest ih =>
    intro m h
    exact ih _ (nodup_listDel m j h)

theorem get_foldl_del_some (sch : List String) : ∀ (m : EngineMap)
    (id : String) (c : ComponentState), NodupKeys m →
    listGet (sch.foldl listDel m) id = some c → listGet m id = some c := by
  induction sch with
  | nil => intro m id c _ h; exact h
  | cons j rest ih =>
    intro m id c hn hg
    have := ih (listDel m j) id c (nodup_listDel m j hn) hg
    by_cases hid : id = j
    · subst hid
      rw [listGet_del_self m id hn] at this
      cases this
    · rw [listGet_del_ne m j id hid] at this
      exact this

theorem mem_foldl_del_none (sch : List String) : ∀ (m : EngineMap)
    (id : String), NodupKeys m → id ∈ sch →
    listGet (sch.foldl listDel m) id = none := by
  induction sch with
  | nil => intro m id _ hmem; simp at hmem
  | cons j rest ih =>
    intro m id hn hmem
    by_cases hid : id = j
    · subst hid
      by_cases hr : id ∈ rest
      · exact ih _ id (nodup_listDel m id hn) hr
      · rw [List.foldl_cons]
        exact get_none_foldl_del rest _ id (listGet_del_self m id hn)
    · have hmem2 : id ∈ rest := by
        rcases List.mem_cons.mp hmem with h | h
        · exact absurd h hid
        · exact h
      exact ih _ id (nodup_listDel m j hn) hmem2

theorem delPhase_chain (sch : List String) : ∀ m : EngineMap, NodupKeys m →
    (∀ id ∈ sch, (∃ c, listGet m id = some c ∧ c.status = .unmounting)
      ∨ listGet m id = none) →
    ChainOK LifecycleEdge m (traceFold listDel m sch) := by
  induction sch with
  | nil => intro m _ _; trivial
  | cons j rest ih =>
    intro m hn hch
    rcases hch j (List.mem_cons_self _ _) with ⟨c, hc, hs⟩ | habs
    · refine ⟨lifecycleEdge_del m j c hc hs hn, ?_⟩
      refine ih _ (nodup_listDel m j hn) ?_
      intro id hid
      by_cases hidj : id = j
      · subst hidj
        exact Or.inr (listGet_del_self m id hn)
      · rcases hch id (List.mem_cons_of_mem _ hid) with ⟨c2, hc2, hs2⟩ | habs2
        · exact Or.inl ⟨c2, by rw [listGet_del_ne m j id hidj]; exact hc2, hs2⟩
        · exact Or.inr (by rw [listGet_del_ne m j id hidj]; exact habs2)
    · have heq : listDel m j = m := listDel_absent m j habs
      refine ⟨?_, ?_⟩
      · rw [heq]; exact lifecycleEdge_refl m
      · rw [heq]
        exact ih m hn (fun id hid => hch id (List.mem_cons_of_mem _ hid))

theorem foldl_insertStep_nodup (reg : String → Bool) (now : ℕ)
    (comps : List ComponentInstanceE) : ∀ m : EngineMap,
    NodupKeys m → NodupKeys (comps.foldl (insertStep reg now) m) := by
  induction comps with
  | nil => intro m h; exact h
  | cons c rest ih =>
    intro m h
    refine ih _ ?_
    cases hr : reg c.type with
    | false => simpa [insertStep, hr] using h
    | true =>
      simp only [insertStep, hr, if_pos]
      exact nodup_listSet _ _ _ h

theorem foldl_mountStep_nodup (comps : List ComponentInstanceE) :
    ∀ m : EngineMap, NodupKeys m →
    NodupKeys (comps.foldl mountStep m) := by
  induction comps with
  | nil => intro m h; exact h
  | cons c rest ih =>
    intro m h
    refine ih _ ?_
    cases hg : listGet m c.id with
    | none => simpa [mountStep, hg] using h
    | some st =>
      simp only [mountStep, hg]
      exact nodup_listSet _ _ _ h

theorem addComponents_ok (reg : String → Bool) (now : ℕ)
    (comps : List ComponentInstanceE) (m : EngineMap)
    (hA : AllMounted m) (hN : NodupKeys m)
    (hfresh : ∀ c ∈ comps, listGet m c.id = none)
    (hnd : (comps.map (fun c => c.id)).Nodup) :
    ChainOK LifecycleEdge m (addComponentsTrace reg now m comps)
    ∧ AllMounted (addComponentsFinal reg now m comps)
    ∧ NodupKeys (addComponentsFinal reg now m comps) := by
  obtain ⟨h1chain, h1char⟩ := addPhase1_ok reg now comps m hfresh hnd
  have hchar2 : ∀ id c2,
      listGet (comps.foldl (insertStep reg now) m) id = some c2 →
      c2.status = .mounted ∨ (c2.status = .mounting ∧ ∃ d ∈ comps, d.id = id) := by
    intro id c2 hg
    rcases h1char id c2 hg with h | h
    · exact Or.inl (hA id c2 h)
    · exact Or.inr h
  obtain ⟨h2chain, h2all⟩ := addPhase2_ok comps _ hchar2
  refine ⟨?_, h2all, ?_⟩
  · show ChainOK _ m (traceFold (insertStep reg now) m comps
      ++ traceFold mountStep (comps.foldl (insertStep reg now) m) comps)
    apply chainOK_append _ _ _ _ h1chain
    rw [traceFold_last]
    exact h2chain
  · exact foldl_mountStep_nodup comps _ (foldl_insertStep_nodup reg now comps m hN)

theorem removeAnim_ok (ids : List String) (a : AnimationObj) (m : EngineMap)
    (hA : AllMounted m) (hN : NodupKeys m) :
    ChainOK LifecycleEdge m (removeComponentsTrace m ids (some a))
    ∧ AllMounted (removeComponentsFinal m ids (some a))
    ∧ NodupKeys (removeComponentsFinal m ids (some a)) := by
  have hMU : MountedOrUnmounting m := fun id c h => Or.inl (hA id c h)
  obtain ⟨h1chain, h1mu⟩ := removePhase1_ok ids m hMU
  have hn1 : NodupKeys (ids.foldl unmountStep m) := foldl_unmount_nodup ids m hN
  have hsch : ∀ id ∈ removeScheduled m ids,
      (∃ c, listGet (ids.foldl unmountStep m) id = some c
        ∧ c.status = .unmounting)
      ∨ listGet (ids.foldl unmountStep m) id = none := by
    intro id hid
    simp only [removeScheduled, List.mem_filter] at hid
    exact Or.inl (unmount_sets ids m id hid.2 hid.1)
  have h2chain := delPhase_chain (removeScheduled m ids) _ hn1 hsch
  refine ⟨?_, ?_, ?_⟩
  · show ChainOK _ m (traceFold unmountStep m ids
      ++ traceFold listDel (ids.foldl unmountStep m) (removeScheduled m ids))
    apply chainOK_append _ _ _ _ h1chain
    rw [traceFold_last]
    exact h2chain
  · intro id c hg
    have hg1 : listGet (ids.foldl unmountStep m) id = some c :=
      get_foldl_del_some _ _ id c hn1 hg
    rcases h1mu id c hg1 with h | h
    · exact h
    · exfalso
      obtain ⟨c0, hc0, hdisj⟩ := unmount_new ids m id c hg1 h
      have hid_ids : id ∈ ids := by
        rcases hdisj with h0 | h0
        · rw [hA id c0 hc0] at h0
          cases h0
        · exact h0
      have hsched : id ∈ removeScheduled m ids :=
        List.mem_filter.mpr ⟨hid_ids, by rw [hc0]; rfl⟩
      have hnone := mem_foldl_del_none (removeScheduled m ids) _ id hn1 hsched
      have hg2 : listGet ((removeScheduled m ids).foldl listDel
          (ids.foldl unmountStep m)) id = some c := hg
      rw [hnone] at hg2
      cases hg2
  · exact foldl_del_nodup _ _ hn1

theorem removeNoAnim_ok (ids : List String) : ∀ m : EngineMap,
    AllMounted m → NodupKeys m →
    ChainOK LifecycleEdge m (removeTraceNoAnim m ids)
    ∧ AllMounted (ids.foldl removeStepNoAnim m)
    ∧ NodupKeys (ids.foldl removeStepNoAnim m) := by
  induction ids with
  | nil => intro m hA hN; exact ⟨trivial, hA, hN⟩
  | cons id rest ih =>
    intro m hA hN
    cases hg : listGet m id with
    | none =>
      have hstep : removeStepNoAnim m id = m := by simp [removeStepNoAnim, hg]
      obtain ⟨ihchain, ihall, ihnd⟩ := ih m hA hN
      refine ⟨?_, ?_, ?_⟩
      · simp only [removeTraceNoAnim, hg]
        exact ⟨lifecycleEdge_refl m, ihchain⟩
      · rw [List.foldl_cons, hstep]; exact ihall
      · rw [List.foldl_cons, hstep]; exact ihnd
    | some c =>
      have hnu : NodupKeys (listSet m id { c with status := .unmounting }) :=
        nodup_listSet _ _ _ hN
      have hmd_all : AllMounted
          (listDel (listSet m id { c with status := .unmounting }) id) := by
        intro id2 c2 h2
        by_cases hid2 : id2 = id
        · subst hid2
          rw [listGet_del_self _ _ hnu] at h2
          cases h2
        · rw [listGet_del_ne _ _ _ hid2, listGet_set_ne _ _ _ _ hid2] at h2
          exact hA id2 c2 h2
      have hmd_nd : NodupKeys
          (listDel (listSet m id { c with status := .unmounting }) id) :=
        nodup_listDel _ _ hnu
      have hstep : removeStepNoAnim m id
          = listDel (listSet m id { c with status := .unmounting }) id := by
        simp [removeStepNoAnim, hg]
      obtain ⟨ihchain, ihall, ihnd⟩ := ih _ hmd_all hmd_nd
      refine ⟨?_, ?_, ?_⟩
      · simp only [removeTraceNoAnim, hg]
        refine ⟨?_, ?_, ihchain⟩
        · exact lifecycleEdge_set m id c _ hg
            (Or.inr (Or.inr ⟨hA id c hg, rfl⟩))
        · exact lifecycleEdge_del _ id { c with status := .unmounting }
            (listGet_set_self _ _ _) rfl hnu
      · rw [List.foldl_cons, hstep]; exact ihall
      · rw [List.foldl_cons, hstep]; exact ihnd

theorem update_ok (us : List ComponentUpdate) : ∀ m : EngineMap,
    AllMounted m → NodupKeys m →
    ChainOK LifecycleEdge m (traceFold updateStep m us)
    ∧ AllMounted (us.foldl updateStep m)
    ∧ NodupKeys (us.foldl updateStep m) := by
  induction us with
  | nil => intro m hA hN; exact ⟨trivial, hA, hN⟩
  | cons u rest ih =>
    intro m hA hN
    cases hg : listGet m u.id with
    | none =>
      have hstep : updateStep m u = m := by simp [updateStep, hg]
      obtain ⟨ihchain, ihall, ihnd⟩ := ih m hA hN
      refine ⟨⟨?_, ?_⟩, ?_, ?_⟩
      · show LifecycleEdge m (updateStep m u)
        rw [hstep]
        exact lifecycleEdge_refl m
      · show ChainOK LifecycleEdge (updateStep m u)
          (traceFold updateStep (updateStep m u) rest)
        rw [hstep]
        exact ihchain
      · rw [List.foldl_cons, hstep]; exact ihall
      · rw [List.foldl_cons, hstep]; exact ihnd
    | some c =>
      have hA2 : AllMounted (updateStep m u) := by
        intro id2 c2 h2
        simp only [updateStep, hg] at h2
        by_cases hid2 : id2 = u.id
        · subst hid2
          rw [listGet_set_self] at h2
          have := Option.some_inj.mp h2
          rw [← this]
          exact hA u.id c hg
        · rw [listGet_set_ne _ _ _ _ hid2] at h2
          exact hA id2 c2 h2
      have hN2 : NodupKeys (updateStep m u) := by
        simp only [updateStep, hg]
        exact nodup_listSet _ _ _ hN
      obtain ⟨ihchain, ihall, ihnd⟩ := ih (updateStep m u) hA2 hN2
      refine ⟨⟨?_, ihchain⟩, ihall, ihnd⟩
      simp only [updateStep, hg]
      exact lifecycleEdge_set m u.id c _ hg (Or.inl rfl)

theorem posFold_ok (pm : List (String × Position)) : ∀ m : EngineMap,
    AllMounted m → NodupKeys m →
    ChainOK LifecycleEdge m (traceFold posStep m pm)
    ∧ AllMounted (pm.foldl posStep m)
    ∧ NodupKeys (pm.foldl posStep m) := by
  induction pm with
  | nil => intro m hA hN; exact ⟨trivial, hA, hN⟩
  | cons kv rest ih =>
    intro m hA hN
    cases hg : listGet m kv.1 with
    | none =>
      have hstep : posStep m kv = m := by simp [posStep, hg]
      obtain ⟨ihchain, ihall, ihnd⟩ := ih m hA hN
      refine ⟨⟨?_, ?_⟩, ?_, ?_⟩
      · show LifecycleEdge m (posStep m kv)
        rw [hstep]
        exact lifecycleEdge_refl m
      · show ChainOK LifecycleEdge (posStep m kv)
          (traceFold posStep (posStep m kv) rest)
        rw [hstep]
        exact ihchain
      · rw [List.foldl_cons, hstep]; exact ihall
      · rw [List.foldl_cons, hstep]; exact ihnd
    | some c =>
      have hA2 : AllMounted (posStep m kv) := by
        intro id2 c2 h2
        simp only [posStep, hg] at h2
        by_cases hid2 : id2 = kv.1
        · subst hid2
          rw [listGet_set_self] at h2
          have := Option.some_inj.mp h2
          rw [← this]
          exact hA kv.1 c hg
        · rw [listGet_set_ne _ _ _ _ hid2] at h2
          exact hA id2 c2 h2
      have hN2 : NodupKeys (posStep m kv) := by
        simp only [posStep, hg]
        exact nodup_listSet _ _ _ hN
      obtain ⟨ihchain, ihall, ihnd⟩ := ih (posStep m kv) hA2 hN2
      refine ⟨⟨?_, ihchain⟩, ihall, ihnd⟩
      simp only [posStep, hg]
      exact lifecycleEdge_set m kv.1 c _ hg (Or.inl rfl)

theorem removeTraceNoAnim_last (ids : List String) : ∀ m : EngineMap,
    (removeTraceNoAnim m ids).getLastD m = ids.foldl removeStepNoAnim m := by
  induction ids with
  | nil => intro m; rfl
  | cons id rest ih =>
    intro m
    cases hg : listGet m id with
    | none =>
      have hstep : removeStepNoAnim m id = m := by simp [removeStepNoAnim, hg]
      simp only [removeTraceNoAnim, hg, List.getLastD_cons, List.foldl_cons,
        hstep]
      exact ih m
    | some c =>
      have hstep : removeStepNoAnim m id
          = listDel (listSet m id { c with status := .unmounting }) id := by
        simp [removeStepNoAnim, hg]
      simp only [removeTraceNoAnim, hg, List.getLastD_cons, List.foldl_cons,
        hstep]
      exact ih _

theorem applyTrace_last (reg : String → Bool) (now : ℕ) (m : EngineMap)
    (i : UIInstructionE) :
    (applyInstrTrace reg now m i).getLastD m = applyInstrMap reg now m i := by
  simp only [applyInstrTrace, applyInstrMap]
  by_cases h1 : i.action = "add"
  · rw [if_pos h1, if_pos h1]
    simp only [addComponentsTrace, addComponentsFinal]
    rw [getLastD_append, traceFold_last, traceFold_last]
  · rw [if_neg h1, if_neg h1]
    by_cases h2 : i.action = "remove"
    · rw [if_pos h2, if_pos h2]
      cases ha : i.animation with
      | some a =>
        simp only [removeComponentsTrace, removeComponentsFinal, ha]
        rw [getLastD_append, traceFold_last, traceFold_last]
      | none =>
        simp only [removeComponentsTrace, removeComponentsFinal, ha]
        exact removeTraceNoAnim_last _ m
    · rw [if_neg h2, if_neg h2]
      by_cases h3 : i.action = "update"
      · rw [if_pos h3, if_pos h3]
        exact traceFold_last _ _ m
      · rw [if_neg h3, if_neg h3]
        by_cases h4 : i.action = "reorganize"
        · rw [if_pos h4, if_pos h4]
          simp only [reorganizeFinal]
          exact traceFold_last _ _ m
        · rw [if_neg h4, if_neg h4]
          rfl

theorem applyInstr_ok (reg : String → Bool) (now : ℕ) (m : EngineMap)
    (i : UIInstructionE) (hA : AllMounted m) (hN : NodupKeys m)
    (hwf : wfInstr m i) :
    ChainOK LifecycleEdge m (applyInstrTrace reg now m i)
    ∧ AllMounted (applyInstrMap reg now m i)
    ∧ NodupKeys (applyInstrMap reg now m i) := by
  simp only [applyInstrTrace, applyInstrMap]
  by_cases h1 : i.action = "add"
  · obtain ⟨hnd, hfresh⟩ := hwf h1
    rw [if_pos h1, if_pos h1]
    exact addComponents_ok reg now (i.components.getD []) m hA hN hfresh hnd
  · rw [if_neg h1, if_neg h1]
    by_cases h2 : i.action = "remove"
    · rw [if_pos h2, if_pos h2]
      cases ha : i.animation with
      | some a =>
        exact removeAnim_ok (i.componentIds.getD []) a m hA hN
      | none =>
        simp only [removeComponentsTrace, removeComponentsFinal]
        exact removeNoAnim_ok (i.componentIds.getD []) m hA hN
    · rw [if_neg h2, if_neg h2]
      by_cases h3 : i.action = "update"
      · rw [if_pos h3, if_pos h3]
        exact update_ok (i.updates.getD []) m hA hN
      · rw [if_neg h3, if_neg h3]
        by_cases h4 : i.action = "reorganize"
        · rw [if_pos h4, if_pos h4]
          simp only [reorganizeFinal]
          exact posFold_ok (calculatePositions (m.map Prod.snd)
            (i.layout.getD "default")) m hA hN
        · rw [if_neg h4, if_neg h4]
          exact ⟨trivial, hA, hN⟩

theorem seq_ok (reg : String → Bool) (is : List (ℕ × UIInstructionE)) :
    ∀ m : EngineMap, AllMounted m → NodupKeys m → wfSeq reg m is →
    ChainOK LifecycleEdge m (seqTrace reg m is)
    ∧ AllMounted (runInstrs reg m is)
    ∧ NodupKeys (runInstrs reg m is) := by
  induction is with
  | nil => exact fun m hA hN _ => ⟨trivial, hA, hN⟩
  | cons p rest ih =>
    intro m hA hN hwf
    obtain ⟨now, i⟩ := p
    obtain ⟨hwi, hwrest⟩ := hwf
    obtain ⟨hchain, hall, hnd⟩ := applyInstr_ok reg now m i hA hN hwi
    obtain ⟨ihchain, ihall, ihnd⟩ := ih (applyInstrMap reg now m i) hall hnd hwrest
    refine ⟨?_, ihall, ihnd⟩
    show ChainOK _ m (applyInstrTrace reg now m i
      ++ seqTrace reg (applyInstrMap reg now m i) rest)
    apply chainOK_append _ _ _ _ hchain
    rw [applyTrace_last]
    exact ihchain

/-- C2 counterexample: applying Apply Add for a registered component to the
empty engine, the intermediate states show the component first as Mounting
and then as Mounted: it is inserted directly as `mounting` — there is no
state in which it is Pending (the stored status type has no such value). -/
theorem c2_counterexample :
    (addComponentsTrace regW 0 [] [cW]).map
      (fun m => (listGet m cW.id).map (fun c => specOf c.status))
      = [some .Mounting, some .Mounted]
    ∧ SpecLifecycle.Mounting ≠ SpecLifecycle.Pending :=
  ⟨rfl, by decide⟩

/-- C2 amended: over every well-formed instruction sequence applied from the
empty engine, each pair of adjacent intermediate states moves every
component along the realized lifecycle machine: absent → inserted as
Mounting, Mounting → Mounted, Mounted → Unmounting, Unmounting → deleted,
or unchanged — no other transition ever occurs, and components enter the
active set as Mounting, not Pending. -/
theorem c2_theorem (reg : String → Bool) (is : List (ℕ × UIInstructionE))
    (h : wfSeq reg [] is) :
    ChainOK LifecycleEdge [] (seqTrace reg [] is) :=
  (seq_ok reg is [] (fun _ _ hg => nomatch hg) (by simp [NodupKeys]) h).1

/-- Witness for C2's amended theorem on a concrete add-then-remove
sequence. -/
theorem c2_witness :
    wfSeq regW [] [(0, addInstrW), (1, removeInstrW)]
    ∧ ChainOK LifecycleEdge []
        (seqTrace regW [] [(0, addInstrW), (1, removeInstrW)]) := by
  have hwf : wfSeq regW [] [(0, addInstrW), (1, removeInstrW)] := by
    refine ⟨?_, ?_, trivial⟩
    · intro _
      exact ⟨by decide, fun c _ => rfl⟩
    · intro hact
      exact absurd hact (by decide)
  exact ⟨hwf, c2_theorem regW _ hwf⟩
